import Mathlib

/-!
Verification development for `mongoose-sub-references-integrity-checker`.

The development is a shallow embedding of `src/index.js`.  MongoDB and
mongoose are external collaborators; they are modelled explicitly:

* a database is a finite map from collection (model) names to lists of
  documents; a document is an id, an association list of dotted field
  paths to field values, and a soft-delete flag;
* `ObjectId`s and scalar reference values are modelled as natural numbers
  (`Id`); JavaScript `null`/`undefined` field values become `Option`;
* a mongoose query object is either `{ _id: v }` or
  `{ path: { $in: values } }`, exactly the two shapes the source builds;
* asynchronous code returns `Except JsErr`; `Promise.all` over
  database-mutating operations is determinized as a left-to-right
  traversal that stops at the first failure (the functional content of
  "wait for all to finish or the first failure");
* the recursive re-entry of `doc.deleteOne()` / `doc.softDelete()` through
  the mongoose middleware hooks is tied with a fuel parameter
  (`mkDocMethods`), structurally recursive so every definition is
  executable by `decide` / `rfl`.

Definitions keep the names of the source functions they embed.
-/

namespace SubRefs

/-- Reference values and document ids (`ObjectId` or exact scalar values). -/
abbrev Id := Nat

/-- A stored field value: a scalar (possibly `null`) or an array.
Arrays of sub-documents are represented by the ids of their elements,
matching `getReferencedValues`'s collapse `d._id || d`. -/
inductive FieldVal where
  | scalar : Option Id → FieldVal
  | arr : List Id → FieldVal
deriving DecidableEq, Repr

/-- A stored document: its model name, `_id`, an association list from
dotted field paths to values, and the soft-delete flag `_deleted`. -/
structure Doc where
  model : String
  idv : Id
  fields : List (String × FieldVal)
  deleted : Bool
deriving DecidableEq, Repr

/-- Reads a (dotted) field path on a document, `undefined` becoming `none`. -/
def Doc.get (d : Doc) (p : String) : Option FieldVal :=
  (d.fields.find? (fun q => q.1 == p)).map Prod.snd

/-- Reads a scalar field on a document (used for `boundTo` lookups). -/
def Doc.getScalar (d : Doc) (p : String) : Option Id :=
  match d.get p with
  | some (.scalar v) => v
  | _ => none

/-- The database: an association list from model names to collections. -/
structure DB where
  colls : List (String × List Doc)
deriving DecidableEq, Repr

/-- All documents of model `m` in a list of collection entries
(concatenating entries with that key). -/
def collAux : List (String × List Doc) → String → List Doc
  | [], _ => []
  | (k, l) :: rest, m => (if k == m then l else []) ++ collAux rest m

/-- All documents of model `m`. -/
def DB.coll (db : DB) (m : String) : List Doc :=
  collAux db.colls m

/-- Whether model `m` still stores a document with id `i`. -/
def DB.hasId (db : DB) (m : String) (i : Id) : Bool :=
  (db.coll m).any (fun d => d.idv == i)

/-- Applies `f` to every collection entry keyed `m`. -/
def DB.mapColl (db : DB) (m : String) (f : List Doc → List Doc) : DB :=
  ⟨db.colls.map (fun p => if p.1 == m then (p.1, f p.2) else p)⟩

/-- The error thrown by `onDeleteBlock` (`src/error.js`, whose class body is
not under `src/`; its fields are taken from the construction site in
`src/index.js` and from the spec's `ReferentialConstraintError`). -/
structure SubRefConstraintError where
  modelSubRef : String
  pathSubRef : String
  modelRef : String
  pathRef : String
  constrainedDocId : Id
deriving DecidableEq, Repr

/-- JavaScript-level failure outcomes of the embedded code: a thrown
`SubRefConstraintError`, any other runtime error (`TypeError` and the
like), and exhaustion of the recursion fuel of the embedding. -/
inductive JsErr where
  | constraint : SubRefConstraintError → JsErr
  | runtimeError : JsErr
  | fuelOut : JsErr
deriving DecidableEq, Repr

/-- Return model name of the subRef (`subRef.split('.')[0]`): the
characters before the first dot, the whole string when there is none. -/
def getRootRef (subRef : String) : String :=
  String.mk (subRef.data.takeWhile (fun c => !(c == '.')))

/-- The two query-object shapes built by `getFindQueryObjectFor`. -/
inductive QueryObj where
  | byId : Id → QueryObj
  | inField : String → List Id → QueryObj
deriving DecidableEq, Repr

/-- Embeds `getFindQueryObjectFor`: `{ _id: boundRefValue }` when the bound
value is present (a non-null `ObjectId` is always truthy), else
`{ [pathRef]: { $in: referencedValues } }`. -/
def getFindQueryObjectFor (pathRef : String) (referencedValues : List Id)
    (boundRefValue : Option Id) : QueryObj :=
  match boundRefValue with
  | some v => .byId v
  | none => .inField pathRef referencedValues

/-- MongoDB matching for `{ $in: vals }` against a stored field value:
a scalar matches when its value is in `vals`, an array when any element
is (the removed values are ids, never `null`). -/
def fieldIn (fv : FieldVal) (vals : List Id) : Bool :=
  match fv with
  | .scalar none => false
  | .scalar (some v) => vals.contains v
  | .arr l => l.any (fun x => vals.contains x)

/-- MongoDB matching of a query object against a document. -/
def matchesQuery (q : QueryObj) (d : Doc) : Bool :=
  match q with
  | .byId v => d.idv == v
  | .inField p vals =>
    match d.get p with
    | some fv => fieldIn fv vals
    | none => false

/-- Embeds `Model.find(query)`: every matching document, in collection order. -/
def DB.findAll (db : DB) (m : String) (q : QueryObj) : List Doc :=
  (db.coll m).filter (matchesQuery q)

/-- Embeds `Model.findOne(query)`: the first matching document. -/
def DB.findOne (db : DB) (m : String) (q : QueryObj) : Option Doc :=
  (db.coll m).find? (matchesQuery q)

/-- Embeds `getReferencedValues`: `referencedDocument.get(pathSubRef).map(d => d._id || d)`.
A missing or non-array value has no `.map`, so the call throws. -/
def getReferencedValues (pathSubRef : String) (referencedDocument : Doc) :
    Except JsErr (List Id) :=
  match referencedDocument.get pathSubRef with
  | some (.arr l) => .ok l
  | _ => .error .runtimeError

/-- SchemaType options relevant to the plugin: `subRef`, `required`,
`cascade`, `boundTo`. -/
structure FieldOpts where
  subRef : Option String
  required : Bool
  cascade : Bool
  boundTo : Option String
deriving DecidableEq, Repr

/-- Options with nothing set. -/
def FieldOpts.none : FieldOpts := ⟨Option.none, false, false, Option.none⟩

mutual
/-- A mongoose SchemaType node.  `prim` covers scalar fields (their own
options), `primArray` a `SchemaArray` of primitives (element options
`options.type[0]` plus the array's own options), `docArray` a
`DocumentArrayPath` carrying its sub-schema (`schemaType.schema`). -/
inductive SchemaNode where
  | prim (opts : FieldOpts)
  | primArray (elemOpts arrOpts : FieldOpts)
  | docArray (sub : SchemaFields)

/-- A mongoose schema's path table: keys are the dotted paths mongoose
itself registers (nested plain objects are flattened into dotted keys;
document-array interiors live only in the sub-schema). -/
inductive SchemaFields where
  | nil
  | cons (name : String) (node : SchemaNode) (rest : SchemaFields)
end

/-- Embeds `schema.path(p)` of mongoose 5 for non-positional paths: a
direct lookup in the schema's path table.  Paths that descend into a
document array are not in the table and yield `undefined`. -/
def SchemaFields.path : SchemaFields → String → Option SchemaNode
  | .nil, _ => Option.none
  | .cons name node rest, p => if name == p then some node else rest.path p

/-- The registered models' schemas (`mongoose.model(name).schema`). -/
abbrev Schemas := List (String × SchemaFields)

/-- Embeds `mongoose.model(name).schema`; an unknown name throws. -/
def lookupSchema (schemas : Schemas) (m : String) : Option SchemaFields :=
  (schemas.find? (fun p => p.1 == m)).map Prod.snd

/-- The two update fragments `getUpdateQueryObjectFor` can produce for the
terminal field: `$pull: { path: { $in: vals } }` or `$set: { path: null }`. -/
inductive UpdateOp where
  | pullIn : List Id → UpdateOp
  | setNull : UpdateOp
deriving DecidableEq, Repr

/-- Embeds `getUpdateQueryObjectFor` (`src/index.js:26`) at the level the
claims need: resolve the terminal SchemaType of `pathRef`
(`model.schema.path(pathRef)`; failure to resolve throws when
`.constructor.name` is read) and choose `$pull { $in: vals }` when it is a
`SchemaArray`, else `$set null`.  The positional `$[]`/`$[j]` update-path
string and `arrayFilters` construction for document-array hops in the
referencing path is realized by `applyUpdateOp` updating the terminal
field of each matching document. -/
def getUpdateQueryObjectFor (schemas : Schemas) (modelRef pathRef : String)
    (referencedValues : List Id) : Except JsErr UpdateOp :=
  match lookupSchema schemas modelRef with
  | Option.none => .error .runtimeError
  | some sch =>
    match sch.path pathRef with
    | Option.none => .error .runtimeError
    | some (.primArray _ _) => .ok (.pullIn referencedValues)
    | some _ => .ok .setNull

/-- Applies `$pull { $in: vals }` to a stored value (no-op on non-arrays). -/
def pullVal (vals : List Id) : FieldVal → FieldVal
  | .arr l => .arr (l.filter (fun x => !vals.contains x))
  | fv => fv

/-- Sets field `p` to `v`, inserting it when absent (as `$set` does). -/
def setField (fields : List (String × FieldVal)) (p : String) (v : FieldVal) :
    List (String × FieldVal) :=
  if fields.any (fun q => q.1 == p) then
    fields.map (fun q => if q.1 == p then (q.1, v) else q)
  else fields ++ [(p, v)]

/-- Applies an update fragment to one document's terminal field. -/
def applyUpdateOp (pathRef : String) (op : UpdateOp) (d : Doc) : Doc :=
  match op with
  | .setNull => { d with fields := setField d.fields pathRef (.scalar Option.none) }
  | .pullIn vals =>
    { d with fields := d.fields.map (fun q => if q.1 == pathRef then (q.1, pullVal vals q.2) else q) }

/-- Embeds `Model.updateMany(query, update)`: one bulk pass over the
collection, updating exactly the matching documents. -/
def DB.updateMany (db : DB) (m : String) (q : QueryObj) (pathRef : String)
    (op : UpdateOp) : DB :=
  db.mapColl m (List.map (fun d => if matchesQuery q d then applyUpdateOp pathRef op d else d))

/-- Embeds `onDeleteSetNull` (`src/index.js:86`): nothing at all on a soft
delete; on a hard delete one bulk `updateMany` with the find query and the
update fragment. -/
def onDeleteSetNull (schemas : Schemas) (modelRef pathRef : String)
    (referencedValues : List Id) (boundRefValue : Option Id)
    (softDelete : Bool) (db : DB) : Except JsErr DB :=
  if !softDelete then
    match getUpdateQueryObjectFor schemas modelRef pathRef referencedValues with
    | .error e => .error e
    | .ok op =>
      .ok (db.updateMany modelRef
        (getFindQueryObjectFor pathRef referencedValues boundRefValue) pathRef op)
  else .ok db

/-- The two mongoose document methods the cascade re-invokes
(`doc.deleteOne()` and `doc.softDelete(flag)`); the hooks they trigger
re-enter the engine, so the engine is parameterized by them and the knot
is tied with fuel in `mkDocMethods`. -/
structure DocMethods where
  deleteOne : Doc → DB → Except JsErr DB
  softDelete : Bool → Doc → DB → Except JsErr DB

/-- Determinization of `Promise.all(documents.map(op))` over the shared
database: apply the per-document operation in collection order and stop at
the first failure. -/
def promiseAll (f : Doc → DB → Except JsErr DB) : List Doc → DB → Except JsErr DB
  | [], db => .ok db
  | d :: ds, db =>
    match f d db with
    | .ok db2 => promiseAll f ds db2
    | .error e => .error e

/-- Embeds `onDeleteCascade` (`src/index.js:105`): find all matching
referencing documents, then re-invoke `softDelete(_deleted)` on each for a
soft delete, else `deleteOne()` on each, under `Promise.all`. -/
def onDeleteCascade (ops : DocMethods) (modelRef pathRef : String)
    (referencedValues : List Id) (boundRefValue : Option Id)
    (softDelete _deleted : Bool) (db : DB) : Except JsErr DB :=
  let documents := db.findAll modelRef (getFindQueryObjectFor pathRef referencedValues boundRefValue)
  if softDelete then promiseAll (ops.softDelete _deleted) documents db
  else promiseAll ops.deleteOne documents db

/-- Embeds `onDeleteBlock` (`src/index.js:125`): unless this is a
soft-delete restore (`softDelete && !_deleted`), `findOne` the referencing
collection and throw a `SubRefConstraintError` naming the blocking
document; the operation never mutates any document. -/
def onDeleteBlock (modelRef pathRef modelSubRef pathSubRef : String)
    (referencedValues : List Id) (boundRefValue : Option Id)
    (softDelete _deleted : Bool) (db : DB) : Except SubRefConstraintError Unit :=
  if !softDelete || _deleted then
    match db.findOne modelRef (getFindQueryObjectFor pathRef referencedValues boundRefValue) with
    | some constrainedDoc =>
      .error ⟨modelSubRef, pathSubRef, modelRef, pathRef, constrainedDoc.idv⟩
    | none => .ok ()
  else .ok ()

/-- Embeds `onDeleteConditions` (`src/index.js:152`): required and cascade
→ `onDeleteCascade`; required only → `onDeleteBlock` (which mutates
nothing, so the database is returned unchanged); not required →
`onDeleteSetNull`. -/
def onDeleteConditions (ops : DocMethods) (schemas : Schemas)
    (required cascade : Bool) (modelRef pathRef modelSubRef pathSubRef : String)
    (referencedValues : List Id) (boundRefValue : Option Id)
    (softDelete _deleted : Bool) (db : DB) : Except JsErr DB :=
  if required then
    if cascade then
      onDeleteCascade ops modelRef pathRef referencedValues boundRefValue softDelete _deleted db
    else
      match onDeleteBlock modelRef pathRef modelSubRef pathSubRef referencedValues
          boundRefValue softDelete _deleted db with
      | .ok _ => .ok db
      | .error e => .error (.constraint e)
  else
    onDeleteSetNull schemas modelRef pathRef referencedValues boundRefValue softDelete db

/-- A Reference Descriptor as stored in the registry
(`{ modelName, path, schemaType }` at `src/index.js:208/221`): the
referencing model, the referencing path, and the declaring SchemaType's
options. -/
structure RefDescriptor where
  modelName : String
  path : String
  opts : FieldOpts
deriving DecidableEq, Repr

/-- The global `refs` table: target model name → reference descriptors. -/
abbrev Registry := List (String × List RefDescriptor)

/-- Reads `refs[k]` as an optional lookup (`undefined` when the key is absent). -/
def Registry.getOpt (r : Registry) (k : String) : Option (List RefDescriptor) :=
  (r.find? (fun p => p.1 == k)).map Prod.snd

/-- Reads `refs[k]`, defaulted to the empty list. -/
def Registry.get (r : Registry) (k : String) : List RefDescriptor :=
  (r.getOpt k).getD []

/-- Writes `refs[k] = v`: replace the entry, or append a new one. -/
def Registry.set (r : Registry) (k : String) (v : List RefDescriptor) : Registry :=
  if r.any (fun p => p.1 == k) then
    r.map (fun p => if p.1 == k then (p.1, v) else p)
  else r ++ [(k, v)]

/-- The loop body of `onDelete` (`src/index.js:232`): for each descriptor
registered against the deleted model, derive `pathSubRef` and the bound
value, collect the referenced values, and run `onDeleteConditions`,
sequentially (`await` inside `for..of`). -/
def onDeleteRefs (ops : DocMethods) (schemas : Schemas) (modelName : String)
    (document : Doc) (softDelete _deleted : Bool) :
    List RefDescriptor → DB → Except JsErr DB
  | [], db => .ok db
  | desc :: rest, db =>
    let subRef := (desc.opts.subRef).getD ""
    let pathSubRef := subRef.drop (modelName.length + 1)
    let boundRefValue := desc.opts.boundTo.bind (fun bt => document.getScalar bt)
    match getReferencedValues pathSubRef document with
    | .error e => .error e
    | .ok referencedValues =>
      match onDeleteConditions ops schemas desc.opts.required desc.opts.cascade
          desc.modelName desc.path modelName pathSubRef referencedValues
          boundRefValue softDelete _deleted db with
      | .ok db2 => onDeleteRefs ops schemas modelName document softDelete _deleted rest db2
      | .error e => .error e

/-- Embeds `onDelete` (`src/index.js:231`) with the document methods as a
parameter. -/
def onDeleteWith (ops : DocMethods) (schemas : Schemas) (registry : Registry)
    (modelName : String) (document : Doc) (softDelete _deleted : Bool)
    (db : DB) : Except JsErr DB :=
  onDeleteRefs ops schemas modelName document softDelete _deleted
    (registry.get modelName) db

/-- Removes every stored document with the given id from model `m`. -/
def DB.removeDoc (db : DB) (m : String) (i : Id) : DB :=
  db.mapColl m (List.filter (fun d => !(d.idv == i)))

/-- Persists the soft-delete flag of the document with the given id. -/
def DB.setDeleted (db : DB) (m : String) (i : Id) (v : Bool) : DB :=
  db.mapColl m (List.map (fun d => if d.idv == i then { d with deleted := v } else d))

/-- Ties the recursive knot of the engine with fuel.  At fuel `n + 1`,
`deleteOne` is the `pre('deleteOne')` hook — `onDelete(this)`, i.e. hard
delete — followed by the removal itself, and `softDelete v` is the
`preSoftDelete` hook — `onDelete(document, { softDelete: true, _deleted: v })`,
the flag having been set to `v` by the soft-delete library before the hook
— followed by persisting the flag (on a constraint error the hook only
rolls back the in-memory flag and rethrows, leaving the database alone).
The hooks run the engine at fuel `n`. -/
def mkDocMethods (schemas : Schemas) (registry : Registry) : Nat → DocMethods
  | 0 =>
    ⟨fun _ _ => .error .fuelOut, fun _ _ _ => .error .fuelOut⟩
  | n + 1 =>
    { deleteOne := fun doc db =>
        match onDeleteWith (mkDocMethods schemas registry n) schemas registry
            doc.model doc false false db with
        | .ok db2 => .ok (db2.removeDoc doc.model doc.idv)
        | .error e => .error e
      softDelete := fun v doc db =>
        match onDeleteWith (mkDocMethods schemas registry n) schemas registry
            doc.model doc true v db with
        | .ok db2 => .ok (db2.setDeleted doc.model doc.idv v)
        | .error e => .error e }

/-- Runs `doc.deleteOne()` at a given fuel. -/
def deleteOneFuel (schemas : Schemas) (registry : Registry) (fuel : Nat)
    (doc : Doc) (db : DB) : Except JsErr DB :=
  (mkDocMethods schemas registry fuel).deleteOne doc db

/-- Runs `doc.softDelete(v)` at a given fuel. -/
def softDeleteFuel (schemas : Schemas) (registry : Registry) (fuel : Nat)
    (v : Bool) (doc : Doc) (db : DB) : Except JsErr DB :=
  (mkDocMethods schemas registry fuel).softDelete v doc db

/-- Embeds the resolution done by `setValidator` (`src/index.js:274`):
`mongoose.model(subRefModel).schema.path(pathSubRef).validate(...)`.
An unknown model or an unresolvable path makes the chain throw (a generic
runtime error, `MissingSchemaError` or `TypeError`); on success mongoose
attaches the validator to whatever SchemaType was found, array or not. -/
def setValidatorResolve (schemas : Schemas) (subRef : String) : Except JsErr Unit :=
  let subRefModel := getRootRef subRef
  let pathSubRef := subRef.drop (subRefModel.length + 1)
  match lookupSchema schemas subRefModel with
  | Option.none => .error .runtimeError
  | some sch =>
    match sch.path pathSubRef with
    | Option.none => .error .runtimeError
    | some _ => .ok ()

mutual
/-- Embeds one step of `eachPath` (`src/index.js:203`).  Branch order as in
the source: a `SchemaArray` whose element options declare `subRef` is
registered under `getRootRef(type[0].subRef)` — but spreading
`refs[schemaType.options.subRef]`, the array's own options, which is the
source's registry bug; a node with a sub-schema is recursed into; any
other node whose own options declare `subRef` is registered under
`getRootRef(subRef)` — spreading `refs[subRef]`, the full dotted string.
Registration is followed by `setValidator`, whose resolution can throw. -/
def eachPathNode (schemas : Schemas) (modelName path : String)
    (node : SchemaNode) (refs : Registry) : Except JsErr Registry :=
  match node with
  | .primArray elemOpts arrOpts =>
    match elemOpts.subRef with
    | some sr =>
      let spread := (match arrOpts.subRef with
        | some k => refs.getOpt k
        | Option.none => Option.none).getD []
      let refs1 := refs.set (getRootRef sr) (spread ++ [⟨modelName, path, elemOpts⟩])
      (setValidatorResolve schemas sr).map (fun _ => refs1)
    | Option.none =>
      match arrOpts.subRef with
      | some sr =>
        let refs1 := refs.set (getRootRef sr)
          (((refs.getOpt sr).getD []) ++ [⟨modelName, path, arrOpts⟩])
        (setValidatorResolve schemas sr).map (fun _ => refs1)
      | Option.none => .ok refs
  | .docArray sub => eachPathFields schemas modelName (path ++ ".") sub refs
  | .prim opts =>
    match opts.subRef with
    | some sr =>
      let refs1 := refs.set (getRootRef sr)
        (((refs.getOpt sr).getD []) ++ [⟨modelName, path, opts⟩])
      (setValidatorResolve schemas sr).map (fun _ => refs1)
    | Option.none => .ok refs

/-- Walks a schema's path table (`schema.eachPath`), threading the
registry and aborting at the first thrown error. -/
def eachPathFields (schemas : Schemas) (modelName basePath : String)
    (fs : SchemaFields) (refs : Registry) : Except JsErr Registry :=
  match fs with
  | .nil => .ok refs
  | .cons name node rest =>
    match eachPathNode schemas modelName (basePath ++ name) node refs with
    | .ok refs1 => eachPathFields schemas modelName basePath rest refs1
    | .error e => .error e
end

/-- Embeds the registration part of `plugin` (`src/index.js:200`):
set up `refs[modelName]` when absent, then walk every path of the
schema.  (On a thrown error the incomplete mutation of the global registry is
not modelled; registration is reported as failed.) -/
def plugin (schemas : Schemas) (modelName : String) (schema : SchemaFields)
    (refs : Registry) : Except JsErr Registry :=
  let refs0 := if (refs.getOpt modelName).isSome then refs else refs.set modelName []
  eachPathFields schemas modelName "" schema refs0

mutual
/-- Every `subRef` string the registration walk of a node would register
and validate, in walk order. -/
def declaredSubRefsNode : SchemaNode → List String
  | .primArray elemOpts arrOpts =>
    match elemOpts.subRef with
    | some sr => [sr]
    | Option.none =>
      match arrOpts.subRef with
      | some sr => [sr]
      | Option.none => []
  | .docArray sub => declaredSubRefsFields sub
  | .prim opts =>
    match opts.subRef with
    | some sr => [sr]
    | Option.none => []

/-- Every `subRef` string the registration walk of a path table would
register and validate, in walk order. -/
def declaredSubRefsFields : SchemaFields → List String
  | .nil => []
  | .cons _ node rest => declaredSubRefsNode node ++ declaredSubRefsFields rest
end

/-- An element of the referenced array as the save-time validator sees it:
a sub-document (carrying `_id` plus the rest of its content, abstracted as
a tag), a scalar object that has an `equals` method (an `ObjectId`:
underlying value plus instance identity), or a plain primitive without
one. -/
inductive Elem where
  | subdoc (idv : Id) (tag : Nat)
  | withEq (v : Id) (tag : Nat)
  | plain (v : Id)
deriving DecidableEq, Repr

/-- The comparison the validator (`src/index.js:288`) applies between an
old element `o` and a new element `n`, chosen by `o`'s shape:
`o._id.equals(n._id)` when `o` is a sub-document (false against an element
without an `_id`), else `o.equals(n)` when `o` has an `equals` method
(`ObjectId.equals` compares the underlying value, also against a raw
primitive, and is false against a sub-document), else strict equality
`o === n` (value equality between primitives, false across shapes). -/
def jsElemMatch (o n : Elem) : Bool :=
  match o with
  | .subdoc oi _ =>
    match n with
    | .subdoc ni _ => oi == ni
    | _ => false
  | .withEq ov _ =>
    match n with
    | .withEq nv _ => ov == nv
    | .plain nv => ov == nv
    | .subdoc _ _ => false
  | .plain ov =>
    match n with
    | .plain nv => ov == nv
    | _ => false

/-- Embeds the removed-value computation of the validator:
`oldValues.filter(o => !newValues.some(...))`. -/
def deletedValuesOf (oldValues newValues : List Elem) : List Elem :=
  oldValues.filter (fun o => !(newValues.any (jsElemMatch o)))

/-- Embeds `d._id || d` on an array element. -/
def elemVal : Elem → Id
  | .subdoc i _ => i
  | .withEq v _ => v
  | .plain v => v

/-- A Pending Cascade Task: the deferred `remover` closure of the
validator, represented by the data it uses when it finally runs — the
declaring options, the referencing model/path, the target model/path, the
removed values and the bound value (the closure reads the bound value from
the document when it runs; the document does not change between
validation and the post-save hook, so the captured value is used). -/
structure PendingTask where
  opts : FieldOpts
  modelRef : String
  pathRef : String
  modelSubRef : String
  pathSubRef : String
  vals : List Id
  bound : Option Id
deriving DecidableEq, Repr

/-- Runs one deferred task: `onDeleteConditions(schemaType, modelName,
path, subRefModel, pathSubRef, values, boundRefValue)` with no
soft-delete options (save-time enforcement is hard-delete semantics). -/
def runTask (ops : DocMethods) (schemas : Schemas) (t : PendingTask) (db : DB) :
    Except JsErr DB :=
  onDeleteConditions ops schemas t.opts.required t.opts.cascade t.modelRef
    t.pathRef t.modelSubRef t.pathSubRef t.vals t.bound false false db

/-- Determinized `Promise.all` over the deferred tasks: run them in queue
order; on a failure the already-applied updates stay in the database and
the first error is reported. -/
def runTasks (ops : DocMethods) (schemas : Schemas) :
    List PendingTask → DB → DB × Except JsErr Unit
  | [], db => (db, .ok ())
  | t :: ts, db =>
    match runTask ops schemas t db with
    | .ok db2 => runTasks ops schemas ts db2
    | .error e => (db, .error e)

/-- The validation failure the validator raises: the wrap of a
`SubRefConstraintError`'s details into a new `Error` (modelled
structurally rather than as the message string), or any other error
rethrown as-is. -/
inductive VError where
  | wrapped (modelSubRef pathSubRef modelRef pathRef : String) (constrainedDocId : Id)
  | js (e : JsErr)
deriving DecidableEq, Repr

/-- What one run of the save-time validator produces: the validation
outcome, the in-memory value of the target field afterwards, the pending
task queue (`$locals.subRefUpdateAfterSave`) afterwards, the database
afterwards, and whether the synchronous enforcement path ran during
validation. -/
structure ValidatorOutcome where
  result : Except VError Unit
  fieldValue : List Elem
  pending : List PendingTask
  db : DB
  enforced : Bool
deriving Repr

/-- Embeds the validator installed by `setValidator`
(`src/index.js:284`–345).  `oldDoc` is `$locals.old` restricted to the
target field (`none` when no prior values were captured), `newValues` the
proposed value, `boundRefValue` the value of `this.get(boundTo)` when the
options declare `boundTo`.  Nothing removed → pass.  Removed and
`required && !cascade` → run the remover synchronously; a
`SubRefConstraintError` rolls the in-memory field back to the old values
and raises the wrapping validation failure, any other error is rethrown
unchanged.  Removed otherwise → enqueue a pending task and pass. -/
def validatorRun (ops : DocMethods) (schemas : Schemas) (opts : FieldOpts)
    (modelName path subRefModel pathSubRef : String) (boundRefValue : Option Id)
    (oldDoc : Option (List Elem)) (newValues : List Elem)
    (pending0 : List PendingTask) (db : DB) : ValidatorOutcome :=
  let oldValues := oldDoc.getD []
  let deletedValues := deletedValuesOf oldValues newValues
  if deletedValues.length > 0 then
    if opts.required && !opts.cascade then
      match onDeleteConditions ops schemas opts.required opts.cascade modelName path
          subRefModel pathSubRef (deletedValues.map elemVal) boundRefValue
          false false db with
      | .ok db2 => ⟨.ok (), newValues, pending0, db2, true⟩
      | .error (.constraint e) =>
        ⟨.error (.wrapped e.modelSubRef e.pathSubRef e.modelRef e.pathRef e.constrainedDocId),
          oldValues, pending0, db, true⟩
      | .error e => ⟨.error (.js e), newValues, pending0, db, true⟩
    else
      ⟨.ok (), newValues,
        pending0 ++ [⟨opts, modelName, path, subRefModel, pathSubRef,
          deletedValues.map elemVal, boundRefValue⟩],
        db, false⟩
  else ⟨.ok (), newValues, pending0, db, false⟩

/-- One validator run with nothing removed: pass, touch nothing. -/
theorem validatorRun_no_removed (ops : DocMethods) (schemas : Schemas)
    (opts : FieldOpts) (mn p srm psr : String) (bound : Option Id)
    (oldDoc : Option (List Elem)) (newValues : List Elem)
    (pending0 : List PendingTask) (db : DB)
    (h : deletedValuesOf (oldDoc.getD []) newValues = []) :
    validatorRun ops schemas opts mn p srm psr bound oldDoc newValues pending0 db =
      ⟨.ok (), newValues, pending0, db, false⟩ := by
  simp only [validatorRun, h]
  simp

/-- One validator run with removals under a deferring policy (cascade or
not required): enqueue the pending task, pass, and leave everything else
alone. -/
theorem validatorRun_deferred (ops : DocMethods) (schemas : Schemas)
    (opts : FieldOpts) (mn p srm psr : String) (bound : Option Id)
    (oldDoc : Option (List Elem)) (newValues : List Elem)
    (pending0 : List PendingTask) (db : DB)
    (hne : deletedValuesOf (oldDoc.getD []) newValues ≠ [])
    (hpol : (opts.required && !opts.cascade) = false) :
    validatorRun ops schemas opts mn p srm psr bound oldDoc newValues pending0 db =
      ⟨.ok (), newValues,
        pending0 ++ [⟨opts, mn, p, srm, psr,
          (deletedValuesOf (oldDoc.getD []) newValues).map elemVal, bound⟩],
        db, false⟩ := by
  have hlen : (deletedValuesOf (oldDoc.getD []) newValues).length > 0 :=
    List.length_pos.mpr hne
  simp only [validatorRun, hpol]
  rw [if_pos hlen]
  simp

/-- One validator run with removals under the block policy: the result is
determined by the synchronous `onDeleteBlock` check (through
`onDeleteConditions`), with the in-memory rollback on a constraint
error. -/
theorem validatorRun_block (ops : DocMethods) (schemas : Schemas)
    (opts : FieldOpts) (mn p srm psr : String) (bound : Option Id)
    (oldDoc : Option (List Elem)) (newValues : List Elem)
    (pending0 : List PendingTask) (db : DB)
    (hne : deletedValuesOf (oldDoc.getD []) newValues ≠ [])
    (hreq : opts.required = true) (hcasc : opts.cascade = false) :
    validatorRun ops schemas opts mn p srm psr bound oldDoc newValues pending0 db =
      (match onDeleteBlock mn p srm psr
          ((deletedValuesOf (oldDoc.getD []) newValues).map elemVal) bound
          false false db with
        | .ok _ => ⟨.ok (), newValues, pending0, db, true⟩
        | .error e =>
          ⟨.error (.wrapped e.modelSubRef e.pathSubRef e.modelRef e.pathRef
            e.constrainedDocId), oldDoc.getD [], pending0, db, true⟩) := by
  have hlen : (deletedValuesOf (oldDoc.getD []) newValues).length > 0 :=
    List.length_pos.mpr hne
  have hpol : (opts.required && !opts.cascade) = true := by simp [hreq, hcasc]
  simp only [validatorRun, hpol, hreq, hcasc]
  rw [if_pos hlen]
  simp only [onDeleteConditions, if_true, Bool.false_eq_true, if_false]
  cases hb : onDeleteBlock mn p srm psr
      ((deletedValuesOf (oldDoc.getD []) newValues).map elemVal) bound
      false false db with
  | ok u => simp
  | error e => simp

/-- Settlement state of a promise returned by `subRefsUpdates`. -/
inductive FState where
  | pending
  | resolved
  | rejected (e : JsErr)
deriving DecidableEq, Repr

/-- The outstanding `subRefsUpdates` promises, by fresh id. -/
abbrev Futures := List (Nat × FState)

/-- State of a promise by id. -/
def futureState (fs : Futures) (i : Nat) : Option FState :=
  (fs.find? (fun p => p.1 == i)).map Prod.snd

/-- Settles a pending promise with the given state (a settled promise
ignores later resolutions). -/
def settleOne (fs : Futures) (i : Nat) (s : FState) : Futures :=
  fs.map (fun p => if p.1 == i && p.2 == FState.pending then (p.1, s) else p)

/-- Settles every listed pending promise. -/
def settleAll (fs : Futures) (ids : List Nat) (s : FState) : Futures :=
  fs.map (fun p => if ids.contains p.1 && p.2 == FState.pending then (p.1, s) else p)

/-- The per-document `$locals` state used by the Deferred Update
Scheduler: the queued tasks (`undefined` when no enqueue happened), the
finished flag (`undefined` / `false` while running / `true`), and the
installed resolver/rejecter chain represented by the ids of the promises
it settles. -/
structure Locals where
  updateAfterSave : Option (List PendingTask)
  updatedAfterSave : Option Bool
  resolvers : List Nat
deriving DecidableEq, Repr

/-- A document instance's fresh `$locals`. -/
def Locals.fresh : Locals := ⟨Option.none, Option.none, []⟩

/-- Embeds `schema.methods.subRefsUpdates` (`src/index.js:372`): create a
new promise; resolve it at once when `$locals.subRefUpdatedAfterSave` is
truthy; chain its resolver and rejecter onto the stored ones.  `fid` is
the fresh promise's id (assumed unused in `fs`). -/
def subRefsUpdates (l : Locals) (fs : Futures) (fid : Nat) : Locals × Futures :=
  let fs1 := fs ++ [(fid, FState.pending)]
  let fs2 := if l.updatedAfterSave == some true then settleOne fs1 fid .resolved else fs1
  ({ l with resolvers := l.resolvers ++ [fid] }, fs2)

/-- Embeds the `schema.post('save')` hook (`src/index.js:351`): nothing
when no tasks were enqueued; otherwise mark the batch running, run every
task (`Promise.all`), delete the queue, notify the resolver chain on
success or the rejecter chain with the first error on failure, and mark
the batch finished in either case. -/
def postSave (ops : DocMethods) (schemas : Schemas) (l : Locals) (db : DB)
    (fs : Futures) : Locals × DB × Futures × Except JsErr Unit :=
  match l.updateAfterSave with
  | Option.none => (l, db, fs, .ok ())
  | some tasks =>
    match runTasks ops schemas tasks db with
    | (db2, .ok _) =>
      (⟨Option.none, some true, l.resolvers⟩, db2, settleAll fs l.resolvers .resolved, .ok ())
    | (db2, .error e) =>
      (⟨Option.none, some true, l.resolvers⟩, db2, settleAll fs l.resolvers (.rejected e), .error e)

/-! Spec-side predicates, written from the specification's wording, to be
compared with the embedded code. -/

/-- The reference values a stored document holds at a path: the singleton
of a non-null scalar, the elements of an array, nothing otherwise. -/
def docValuesAt (d : Doc) (p : String) : List Id :=
  match d.get p with
  | some (.scalar (some v)) => [v]
  | some (.arr l) => l
  | _ => []

/-- The spec's matching criterion for enforcement queries: matched by the
bound value when present, else by containment of some removed value. -/
def SpecBlockMatch (pathRef : String) (vals : List Id) (bound : Option Id)
    (d : Doc) : Prop :=
  match bound with
  | some v => d.idv = v
  | Option.none => ∃ x ∈ docValuesAt d pathRef, x ∈ vals

/-- The spec's element comparison for the removed-value set:
sub-documents by id equality, scalars by the element's own equals method
when available (value equality) and by strict equality otherwise; an old
element of one shape never matches a new element of an incomparable
shape. -/
def elemMatchSpec (o n : Elem) : Bool :=
  match o, n with
  | .subdoc oi _, .subdoc ni _ => oi == ni
  | .subdoc _ _, _ => false
  | .withEq ov _, .withEq nv _ => ov == nv
  | .withEq ov _, .plain nv => ov == nv
  | .withEq _ _, .subdoc _ _ => false
  | .plain ov, .plain nv => ov == nv
  | .plain _, _ => false

/-! Helper lemmas. -/

theorem matchesQuery_iff_spec (pathRef : String) (vals : List Id)
    (bound : Option Id) (d : Doc) :
    matchesQuery (getFindQueryObjectFor pathRef vals bound) d = true ↔
      SpecBlockMatch pathRef vals bound d := by
  cases bound with
  | some v => simp [matchesQuery, getFindQueryObjectFor, SpecBlockMatch]
  | none =>
    simp only [getFindQueryObjectFor, matchesQuery, SpecBlockMatch]
    cases h : d.get pathRef with
    | none => simp [docValuesAt, h]
    | some fv =>
      cases fv with
      | scalar ov =>
        cases ov with
        | none => simp [fieldIn, docValuesAt, h]
        | some v => simp [fieldIn, docValuesAt, h]
      | arr l =>
        simp [fieldIn, docValuesAt, h, List.any_eq_true]

theorem find?_isSome_iff {α : Type} (p : α → Bool) (l : List α) :
    (l.find? p).isSome = true ↔ ∃ x ∈ l, p x = true := by
  induction l with
  | nil => simp [List.find?]
  | cons a l ih =>
    by_cases h : p a = true
    · simp [List.find?, h]
    · simp only [List.find?, Bool.not_eq_true] at *
      simp [h, ih]

theorem find?_eq_some {α : Type} (p : α → Bool) (l : List α) (a : α)
    (h : l.find? p = some a) : a ∈ l ∧ p a = true :=
  ⟨List.mem_of_find?_eq_some h, List.find?_some h⟩

theorem findOne_isSome_iff (db : DB) (m pathRef : String) (vals : List Id)
    (bound : Option Id) :
    (db.findOne m (getFindQueryObjectFor pathRef vals bound)).isSome = true ↔
      ∃ d ∈ db.coll m, SpecBlockMatch pathRef vals bound d := by
  unfold DB.findOne
  rw [find?_isSome_iff]
  constructor
  · rintro ⟨d, hd, hm⟩
    exact ⟨d, hd, (matchesQuery_iff_spec pathRef vals bound d).mp hm⟩
  · rintro ⟨d, hd, hm⟩
    exact ⟨d, hd, (matchesQuery_iff_spec pathRef vals bound d).mpr hm⟩

theorem findOne_some_spec (db : DB) (m pathRef : String) (vals : List Id)
    (bound : Option Id) (d : Doc)
    (h : db.findOne m (getFindQueryObjectFor pathRef vals bound) = some d) :
    d ∈ db.coll m ∧ SpecBlockMatch pathRef vals bound d := by
  have h2 := find?_eq_some _ _ _ h
  exact ⟨h2.1, (matchesQuery_iff_spec pathRef vals bound d).mp h2.2⟩

/-- C1: for a required, non-cascading reference descriptor, the block
enforcement (`onDeleteBlock`) throws a constraint error — carrying the
referencing model and path, the target model and path, and the blocking
document's id — if and only if the delete context is not a soft-delete
restore and the referencing collection contains a matching document
(matched by the bound value when present, else by containment of some
removed value); and in every case it mutates nothing (under the block
policy `onDeleteConditions` returns the database unchanged). -/
theorem onDeleteBlock_spec (modelRef pathRef modelSubRef pathSubRef : String)
    (vals : List Id) (bound : Option Id) (softDelete _deleted : Bool) (db : DB) :
    ((∃ e, onDeleteBlock modelRef pathRef modelSubRef pathSubRef vals bound
        softDelete _deleted db = .error e) ↔
      (¬(softDelete = true ∧ _deleted = false) ∧
        ∃ d ∈ db.coll modelRef, SpecBlockMatch pathRef vals bound d))
    ∧ (∀ e, onDeleteBlock modelRef pathRef modelSubRef pathSubRef vals bound
        softDelete _deleted db = .error e →
        e.modelSubRef = modelSubRef ∧ e.pathSubRef = pathSubRef ∧
        e.modelRef = modelRef ∧ e.pathRef = pathRef ∧
        ∃ d ∈ db.coll modelRef, SpecBlockMatch pathRef vals bound d ∧
          e.constrainedDocId = d.idv)
    ∧ (∀ (ops : DocMethods) (schemas : Schemas) (db' : DB),
        onDeleteConditions ops schemas true false modelRef pathRef modelSubRef
          pathSubRef vals bound softDelete _deleted db = .ok db' → db' = db) := by
  have hrun : ∀ (prf : (!softDelete || _deleted) = true),
      onDeleteBlock modelRef pathRef modelSubRef pathSubRef vals bound
        softDelete _deleted db =
      (match db.findOne modelRef (getFindQueryObjectFor pathRef vals bound) with
        | some constrainedDoc =>
          .error ⟨modelSubRef, pathSubRef, modelRef, pathRef, constrainedDoc.idv⟩
        | none => .ok ()) := by
    intro prf
    simp [onDeleteBlock, prf]
  refine ⟨?_, ?_, ?_⟩
  · by_cases hc : (!softDelete || _deleted) = true
    · rw [hrun hc]
      cases h : db.findOne modelRef (getFindQueryObjectFor pathRef vals bound) with
      | some d =>
        have hd := findOne_some_spec db modelRef pathRef vals bound d h
        simp only [h]
        constructor
        · intro _
          refine ⟨?_, d, hd.1, hd.2⟩
          rcases Bool.or_eq_true _ _ |>.mp hc with h1 | h1
          · simp [Bool.not_eq_true'] at h1
            simp [h1]
          · simp [h1]
        · intro _
          exact ⟨_, rfl⟩
      | none =>
        simp only [h]
        constructor
        · rintro ⟨e, he⟩
          cases he
        · rintro ⟨_, d, hd, hm⟩
          have : (db.findOne modelRef (getFindQueryObjectFor pathRef vals bound)).isSome = true :=
            (findOne_isSome_iff db modelRef pathRef vals bound).mpr ⟨d, hd, hm⟩
          rw [h] at this
          cases this
    · have hsd : softDelete = true ∧ _deleted = false := by
        simpa using hc
      have hblk : onDeleteBlock modelRef pathRef modelSubRef pathSubRef vals bound
          softDelete _deleted db = .ok () := by
        simp [onDeleteBlock, hsd.1, hsd.2]
      rw [hblk]
      constructor
      · rintro ⟨e, he⟩
        cases he
      · rintro ⟨hcon, _⟩
        exact absurd hsd hcon
  · intro e he
    by_cases hc : (!softDelete || _deleted) = true
    · rw [hrun hc] at he
      cases h : db.findOne modelRef (getFindQueryObjectFor pathRef vals bound) with
      | some d =>
        rw [h] at he
        cases he
        have hd := findOne_some_spec db modelRef pathRef vals bound d h
        exact ⟨rfl, rfl, rfl, rfl, d, hd.1, hd.2, rfl⟩
      | none =>
        rw [h] at he
        cases he
    · have hsd1 : softDelete = true := by
        cases hs : softDelete
        · rw [hs] at hc; simp at hc
        · rfl
      have hsd2 : _deleted = false := by
        cases hdel : _deleted
        · rfl
        · rw [hdel] at hc; simp at hc
      simp [onDeleteBlock, hsd1, hsd2] at he
  · intro ops schemas db' h
    simp only [onDeleteConditions, if_true] at h
    cases hb : onDeleteBlock modelRef pathRef modelSubRef pathSubRef vals bound
        softDelete _deleted db with
    | ok u =>
      rw [hb] at h
      cases h
      rfl
    | error e =>
      rw [hb] at h
      cases h

/-- Fixture: a target document with two referenced sub-document ids. -/
def personDocW : Doc := ⟨"Person", 100, [("contacts", .arr [1, 2])], false⟩

/-- Fixture: a referencing document whose scalar reference holds `v`. -/
def msgDocW (i v : Id) : Doc := ⟨"Message", i, [("contact", .scalar (some v))], false⟩

/-- Fixture: one Person and one Message referencing its first contact. -/
def dbW : DB := ⟨[("Person", [personDocW]), ("Message", [msgDocW 10 1])]⟩

/-- Witness for C1: on the repository's first test scenario the block
check throws, and the error names the blocking message. -/
theorem onDeleteBlock_spec_witness :
    ∃ e, onDeleteBlock "Message" "contact" "Person" "contacts" [1, 2]
      Option.none false false dbW = .error e :=
  (onDeleteBlock_spec "Message" "contact" "Person" "contacts" [1, 2]
      Option.none false false dbW).1.mpr
    ⟨by simp, msgDocW 10 1, by simp [dbW, DB.coll, collAux],
      by simp [SpecBlockMatch, docValuesAt, msgDocW, Doc.get, List.find?]⟩

/-- C10: when the descriptor declares `boundTo` and the value read for it
is non-null, the find query built for block, cascade and set-null is
exactly `{ _id: boundValue }`: a document matches precisely when its id is
the bound value, the removed-value set places no constraint on the query,
and consequently the block check and the documents selected (for
cascading or updating) are identical for any two removed-value sets. -/
theorem getFindQueryObjectFor_bound_spec (pathRef : String)
    (vals vals' : List Id) (v : Id) :
    getFindQueryObjectFor pathRef vals (some v) = .byId v
    ∧ (∀ d, matchesQuery (getFindQueryObjectFor pathRef vals (some v)) d = (d.idv == v))
    ∧ (∀ modelRef modelSubRef pathSubRef softDelete _deleted db,
        onDeleteBlock modelRef pathRef modelSubRef pathSubRef vals (some v)
          softDelete _deleted db =
        onDeleteBlock modelRef pathRef modelSubRef pathSubRef vals' (some v)
          softDelete _deleted db)
    ∧ (∀ (db : DB) m,
        db.findAll m (getFindQueryObjectFor pathRef vals (some v)) =
        db.findAll m (getFindQueryObjectFor pathRef vals' (some v))) := by
  refine ⟨rfl, fun d => rfl, fun modelRef modelSubRef pathSubRef softDelete _deleted db => rfl,
    fun db m => rfl⟩

theorem collAux_cons (k : String) (l : List Doc) (rest : List (String × List Doc))
    (m : String) :
    collAux ((k, l) :: rest) m = (if k == m then l else []) ++ collAux rest m := rfl

theorem coll_mapColl_self (db : DB) (m : String) (g : Doc → Doc) :
    (db.mapColl m (List.map g)).coll m = (db.coll m).map g := by
  obtain ⟨colls⟩ := db
  simp only [DB.mapColl, DB.coll]
  induction colls with
  | nil => simp [collAux]
  | cons p rest ih =>
    obtain ⟨k, l⟩ := p
    rw [List.map_cons]
    by_cases hk : k = m
    · have hb : (k == m) = true := by simp [hk]
      rw [if_pos hb, collAux_cons, collAux_cons, if_pos hb, if_pos hb, ih,
        List.map_append]
    · have hb : (k == m) = false := by simp [hk]
      rw [if_neg (by simp [hb]), collAux_cons, collAux_cons, if_neg (by simp [hb]),
        List.nil_append, List.nil_append, ih]

theorem coll_mapColl_ne (db : DB) (m : String) (f : List Doc → List Doc)
    (m' : String) (h : m' ≠ m) : (db.mapColl m f).coll m' = db.coll m' := by
  obtain ⟨colls⟩ := db
  simp only [DB.mapColl, DB.coll]
  induction colls with
  | nil => simp
  | cons p rest ih =>
    obtain ⟨k, l⟩ := p
    rw [List.map_cons]
    by_cases hk : k = m
    · have hb : (k == m) = true := by simp [hk]
      have hb2 : (k == m') = false := by
        simp only [beq_eq_false_iff_ne, ne_eq]
        intro hh
        exact h (hh.symm.trans hk)
      rw [if_pos hb, collAux_cons, collAux_cons, if_neg (by simp [hb2]),
        if_neg (by simp [hb2]), List.nil_append, List.nil_append, ih]
    · have hb : (k == m) = false := by simp [hk]
      rw [if_neg (by simp [hb]), collAux_cons, collAux_cons, ih]

theorem get_map_fields (fields : List (String × FieldVal)) (p : String)
    (t : FieldVal → FieldVal) :
    ((fields.map (fun q => if q.1 == p then (q.1, t q.2) else q)).find?
        (fun q => q.1 == p)).map Prod.snd =
      ((fields.find? (fun q => q.1 == p)).map Prod.snd).map t := by
  induction fields with
  | nil => simp [List.find?]
  | cons q rest ih =>
    by_cases hq : q.1 = p
    · have hb : (q.1 == p) = true := by simp [hq]
      rw [List.map_cons, if_pos hb]
      simp [List.find?_cons, hb]
    · have hb : (q.1 == p) = false := by simp [hq]
      rw [List.map_cons, if_neg (by simp [hb])]
      simp only [List.find?_cons, hb]
      exact ih

theorem get_applyUpdateOp_pull (p : String) (vals : List Id) (d : Doc) :
    (applyUpdateOp p (.pullIn vals) d).get p = (d.get p).map (pullVal vals) := by
  simp only [applyUpdateOp, Doc.get]
  exact get_map_fields d.fields p (pullVal vals)

theorem find?_map_keep (fields : List (String × FieldVal)) (p : String)
    (v : FieldVal) (h : fields.any (fun q => q.1 == p) = true) :
    ((fields.map (fun q => if q.1 == p then (q.1, v) else q)).find?
        (fun q => q.1 == p)).map Prod.snd = some v := by
  induction fields with
  | nil => cases h
  | cons q rest ih =>
    by_cases hq : q.1 = p
    · have hb : (q.1 == p) = true := by simp [hq]
      rw [List.map_cons, if_pos hb]
      simp [List.find?_cons, hb]
    · have hb : (q.1 == p) = false := by simp [hq]
      rw [List.map_cons, if_neg (by simp [hb])]
      simp only [List.any_cons, hb, Bool.false_or] at h
      simp only [List.find?_cons, hb]
      exact ih h

theorem find?_append_keep (fields : List (String × FieldVal)) (p : String)
    (v : FieldVal) (h : fields.any (fun q => q.1 == p) = false) :
    ((fields ++ [(p, v)]).find? (fun q => q.1 == p)).map Prod.snd = some v := by
  induction fields with
  | nil => simp [List.find?]
  | cons q rest ih =>
    simp only [List.any_cons, Bool.or_eq_false_iff] at h
    rw [List.cons_append]
    simp only [List.find?_cons, h.1]
    exact ih h.2

theorem get_setField (fields : List (String × FieldVal)) (p : String) (v : FieldVal) :
    ((setField fields p v).find? (fun q => q.1 == p)).map Prod.snd = some v := by
  by_cases h : fields.any (fun q => q.1 == p) = true
  · simp only [setField, h, if_true]
    exact find?_map_keep fields p v h
  · have h2 : fields.any (fun q => q.1 == p) = false := by
      cases hx : fields.any (fun q => q.1 == p)
      · rfl
      · exact absurd hx h
    simp only [setField, h2, Bool.false_eq_true, if_false]
    exact find?_append_keep fields p v h2

theorem get_applyUpdateOp_setNull (p : String) (d : Doc) :
    (applyUpdateOp p .setNull d).get p = some (.scalar Option.none) := by
  simp only [applyUpdateOp, Doc.get]
  exact get_setField d.fields p (.scalar Option.none)

/-- C3: a not-required descriptor's enforcement (`onDeleteSetNull`)
mutates the referencing collection only on hard deletion: on a soft
delete the database is returned untouched, and on a hard delete it is one
bulk `updateMany` over the referencing collection that, on each matching
document, pulls the removed values out of an array-valued terminal
reference field or sets a scalar terminal reference field to null;
non-matching documents and other collections are untouched. -/
theorem onDeleteSetNull_spec (schemas : Schemas) (modelRef pathRef : String)
    (vals : List Id) (bound : Option Id) (db : DB) (sch : SchemaFields)
    (node : SchemaNode) (hsch : lookupSchema schemas modelRef = some sch)
    (hpath : sch.path pathRef = some node) :
    (onDeleteSetNull schemas modelRef pathRef vals bound true db = .ok db)
    ∧ (∀ op, getUpdateQueryObjectFor schemas modelRef pathRef vals = .ok op →
        (op = match node with
          | .primArray _ _ => UpdateOp.pullIn vals
          | _ => UpdateOp.setNull)
        ∧ onDeleteSetNull schemas modelRef pathRef vals bound false db =
            .ok (db.updateMany modelRef (getFindQueryObjectFor pathRef vals bound)
              pathRef op)
        ∧ (∀ m', m' ≠ modelRef →
            (db.updateMany modelRef (getFindQueryObjectFor pathRef vals bound)
              pathRef op).coll m' = db.coll m')
        ∧ (db.updateMany modelRef (getFindQueryObjectFor pathRef vals bound)
            pathRef op).coll modelRef =
          (db.coll modelRef).map (fun d =>
            if matchesQuery (getFindQueryObjectFor pathRef vals bound) d
            then applyUpdateOp pathRef op d else d))
    ∧ (∀ (d : Doc) (l : List Id), d.get pathRef = some (.arr l) →
        (applyUpdateOp pathRef (.pullIn vals) d).get pathRef =
          some (.arr (l.filter (fun x => !vals.contains x))))
    ∧ (∀ d : Doc, (applyUpdateOp pathRef .setNull d).get pathRef =
        some (.scalar Option.none))
    ∧ (∀ (op : UpdateOp) (d : Doc), (applyUpdateOp pathRef op d).idv = d.idv
        ∧ (applyUpdateOp pathRef op d).model = d.model
        ∧ (applyUpdateOp pathRef op d).deleted = d.deleted) := by
  refine ⟨by simp [onDeleteSetNull], ?_, ?_, ?_, ?_⟩
  · intro op hop
    have hform : getUpdateQueryObjectFor schemas modelRef pathRef vals =
        .ok (match node with
          | .primArray _ _ => UpdateOp.pullIn vals
          | _ => UpdateOp.setNull) := by
      simp only [getUpdateQueryObjectFor, hsch, hpath]
      cases node <;> rfl
    rw [hform] at hop
    cases hop
    refine ⟨rfl, ?_, ?_, ?_⟩
    · simp only [onDeleteSetNull, Bool.not_false, if_true, hform]
    · intro m' hm'
      exact coll_mapColl_ne db modelRef _ m' hm'
    · exact coll_mapColl_self db modelRef _
  · intro d l hd
    rw [get_applyUpdateOp_pull, hd]
    rfl
  · exact fun d => get_applyUpdateOp_setNull pathRef d
  · intro op d
    cases op <;> exact ⟨rfl, rfl, rfl⟩

/-- Fixture: the `Person` schema of the repository's tests — a scalar
`name` and a document array `contacts` of sub-documents with an `email`. -/
def personSchemaW : SchemaFields :=
  .cons "name" (.prim FieldOpts.none)
    (.cons "contacts" (.docArray (.cons "email" (.prim FieldOpts.none) .nil)) .nil)

/-- Fixture: schemas for the repository's test models (`Person` with a
document-array `contacts`, `Message` with a scalar reference `contact`). -/
def schemasW : Schemas :=
  [("Person", personSchemaW),
   ("Message", .cons "contact"
      (.prim ⟨some "Person.contacts", false, false, Option.none⟩) .nil)]

/-- The result database stores no document id that the input database did
not already store (enforcement never inserts documents). -/
def Shrinks (db db' : DB) : Prop :=
  ∀ m i, db'.hasId m i = true → db.hasId m i = true

theorem Shrinks.rfl (db : DB) : Shrinks db db := fun _ _ h => h

theorem Shrinks.trans {db1 db2 db3 : DB} (h1 : Shrinks db1 db2)
    (h2 : Shrinks db2 db3) : Shrinks db1 db3 :=
  fun m i h => h1 m i (h2 m i h)

theorem coll_mapColl_filter (db : DB) (m : String) (p : Doc → Bool) :
    (db.mapColl m (List.filter p)).coll m = (db.coll m).filter p := by
  obtain ⟨colls⟩ := db
  simp only [DB.mapColl, DB.coll]
  induction colls with
  | nil => simp [collAux]
  | cons q rest ih =>
    obtain ⟨k, l⟩ := q
    rw [List.map_cons]
    by_cases hk : k = m
    · have hb : (k == m) = true := by simp [hk]
      rw [if_pos hb, collAux_cons, collAux_cons, if_pos hb, if_pos hb, ih,
        List.filter_append]
    · have hb : (k == m) = false := by simp [hk]
      rw [if_neg (by simp [hb]), collAux_cons, collAux_cons, if_neg (by simp [hb]),
        List.nil_append, List.nil_append, ih]

theorem shrinks_mapColl_map (db : DB) (m : String) (g : Doc → Doc)
    (hg : ∀ d, (g d).idv = d.idv) : Shrinks db (db.mapColl m (List.map g)) := by
  intro m' i h
  by_cases hm : m' = m
  · subst hm
    rw [DB.hasId, coll_mapColl_self] at h
    rw [DB.hasId]
    rw [List.any_map] at h
    rcases List.any_eq_true.mp h with ⟨d, hd, hpd⟩
    refine List.any_eq_true.mpr ⟨d, hd, ?_⟩
    simpa [Function.comp, hg d] using hpd
  · rwa [DB.hasId, coll_mapColl_ne db m _ m' hm] at h

theorem shrinks_mapColl_filter (db : DB) (m : String) (p : Doc → Bool) :
    Shrinks db (db.mapColl m (List.filter p)) := by
  intro m' i h
  by_cases hm : m' = m
  · subst hm
    rw [DB.hasId, coll_mapColl_filter] at h
    rw [DB.hasId]
    rcases List.any_eq_true.mp h with ⟨d, hd, hpd⟩
    exact List.any_eq_true.mpr ⟨d, (List.mem_filter.mp hd).1, hpd⟩
  · rwa [DB.hasId, coll_mapColl_ne db m _ m' hm] at h

theorem idv_applyUpdateOp (pathRef : String) (op : UpdateOp) (d : Doc) :
    (applyUpdateOp pathRef op d).idv = d.idv := by
  cases op <;> rfl

theorem shrinks_updateMany (db : DB) (m : String) (q : QueryObj)
    (pathRef : String) (op : UpdateOp) :
    Shrinks db (db.updateMany m q pathRef op) := by
  refine shrinks_mapColl_map db m _ (fun d => ?_)
  by_cases h : matchesQuery q d = true
  · simp [h, idv_applyUpdateOp]
  · simp [h]

theorem shrinks_removeDoc (db : DB) (m : String) (i : Id) :
    Shrinks db (db.removeDoc m i) :=
  shrinks_mapColl_filter db m _

theorem shrinks_setDeleted (db : DB) (m : String) (i : Id) (v : Bool) :
    Shrinks db (db.setDeleted m i v) := by
  refine shrinks_mapColl_map db m _ (fun d => ?_)
  by_cases h : (d.idv == i) = true
  · simp [h]
  · simp [h]

theorem hasId_removeDoc_self (db : DB) (m : String) (i : Id) :
    (db.removeDoc m i).hasId m i = false := by
  rw [DB.removeDoc, DB.hasId, coll_mapColl_filter]
  cases hx : ((db.coll m).filter (fun d => !(d.idv == i))).any (fun d => d.idv == i) with
  | false => rfl
  | true =>
    exfalso
    rcases List.any_eq_true.mp hx with ⟨d, hd, hpd⟩
    have := (List.mem_filter.mp hd).2
    rw [hpd] at this
    cases this

/-- The document methods never re-insert an already-removed id. -/
def MonoOps (ops : DocMethods) : Prop :=
  (∀ d db db', ops.deleteOne d db = .ok db' → Shrinks db db')
  ∧ (∀ v d db db', ops.softDelete v d db = .ok db' → Shrinks db db')

theorem shrinks_onDeleteSetNull (schemas : Schemas) (modelRef pathRef : String)
    (vals : List Id) (bound : Option Id) (softDelete : Bool) (db db' : DB)
    (h : onDeleteSetNull schemas modelRef pathRef vals bound softDelete db = .ok db') :
    Shrinks db db' := by
  by_cases hs : softDelete = true
  · simp [onDeleteSetNull, hs] at h
    exact h ▸ Shrinks.rfl db
  · have hs' : softDelete = false := by
      cases softDelete
      · rfl
      · exact absurd rfl hs
    subst hs'
    simp only [onDeleteSetNull, Bool.not_false, if_true] at h
    cases hu : getUpdateQueryObjectFor schemas modelRef pathRef vals with
    | error e => rw [hu] at h; cases h
    | ok op =>
      rw [hu] at h
      cases h
      exact shrinks_updateMany db modelRef _ pathRef op

theorem shrinks_promiseAll (f : Doc → DB → Except JsErr DB)
    (hf : ∀ d db db', f d db = .ok db' → Shrinks db db') :
    ∀ (docs : List Doc) (db db' : DB), promiseAll f docs db = .ok db' → Shrinks db db' := by
  intro docs
  induction docs with
  | nil =>
    intro db db' h
    cases h
    exact Shrinks.rfl _
  | cons d ds ih =>
    intro db db' h
    simp only [promiseAll] at h
    cases hx : f d db with
    | error e => rw [hx] at h; cases h
    | ok db1 =>
      rw [hx] at h
      exact (hf d db db1 hx).trans (ih db1 db' h)

theorem shrinks_onDeleteCascade (ops : DocMethods) (hops : MonoOps ops)
    (modelRef pathRef : String) (vals : List Id) (bound : Option Id)
    (softDelete _deleted : Bool) (db db' : DB)
    (h : onDeleteCascade ops modelRef pathRef vals bound softDelete _deleted db = .ok db') :
    Shrinks db db' := by
  simp only [onDeleteCascade] at h
  by_cases hs : softDelete = true
  · rw [hs] at h
    simp only [if_true] at h
    exact shrinks_promiseAll _ (fun d db db' => hops.2 _deleted d db db') _ db db' h
  · have hs' : softDelete = false := by
      cases softDelete
      · rfl
      · exact absurd rfl hs
    rw [hs'] at h
    simp only [Bool.false_eq_true, if_false] at h
    exact shrinks_promiseAll _ (fun d db db' => hops.1 d db db') _ db db' h

theorem shrinks_onDeleteConditions (ops : DocMethods) (hops : MonoOps ops)
    (schemas : Schemas) (required cascade : Bool)
    (modelRef pathRef modelSubRef pathSubRef : String) (vals : List Id)
    (bound : Option Id) (softDelete _deleted : Bool) (db db' : DB)
    (h : onDeleteConditions ops schemas required cascade modelRef pathRef
      modelSubRef pathSubRef vals bound softDelete _deleted db = .ok db') :
    Shrinks db db' := by
  simp only [onDeleteConditions] at h
  by_cases hr : required = true
  · rw [hr] at h
    simp only [if_true] at h
    by_cases hcasc : cascade = true
    · rw [hcasc] at h
      simp only [if_true] at h
      exact shrinks_onDeleteCascade ops hops modelRef pathRef vals bound
        softDelete _deleted db db' h
    · have hc' : cascade = false := by
        cases cascade
        · rfl
        · exact absurd rfl hcasc
      rw [hc'] at h
      simp only [Bool.false_eq_true, if_false] at h
      cases hb : onDeleteBlock modelRef pathRef modelSubRef pathSubRef vals bound
          softDelete _deleted db with
      | error e => rw [hb] at h; cases h
      | ok u =>
        rw [hb] at h
        cases h
        exact Shrinks.rfl db
  · have hr' : required = false := by
      cases required
      · rfl
      · exact absurd rfl hr
    rw [hr'] at h
    simp only [Bool.false_eq_true, if_false] at h
    exact shrinks_onDeleteSetNull schemas modelRef pathRef vals bound softDelete db db' h

theorem shrinks_onDeleteRefs (ops : DocMethods) (hops : MonoOps ops)
    (schemas : Schemas) (modelName : String) (document : Doc)
    (softDelete _deleted : Bool) :
    ∀ (descs : List RefDescriptor) (db db' : DB),
      onDeleteRefs ops schemas modelName document softDelete _deleted descs db = .ok db' →
      Shrinks db db' := by
  intro descs
  induction descs with
  | nil =>
    intro db db' h
    cases h
    exact Shrinks.rfl _
  | cons desc rest ih =>
    intro db db' h
    simp only [onDeleteRefs] at h
    cases hv : getReferencedValues
        (((desc.opts.subRef).getD "").drop (modelName.length + 1)) document with
    | error e =>
      simp only [hv] at h
      exact Except.noConfusion h
    | ok vals =>
      simp only [hv] at h
      cases hc : onDeleteConditions ops schemas desc.opts.required desc.opts.cascade
          desc.modelName desc.path modelName
          (((desc.opts.subRef).getD "").drop (modelName.length + 1)) vals
          (desc.opts.boundTo.bind (fun bt => document.getScalar bt))
          softDelete _deleted db with
      | error e =>
        simp only [hc] at h
        exact Except.noConfusion h
      | ok db1 =>
        simp only [hc] at h
        exact (shrinks_onDeleteConditions ops hops schemas _ _ _ _ _ _ _ _ _ _ db db1 hc).trans
          (ih db1 db' h)

theorem mkDocMethods_mono (schemas : Schemas) (registry : Registry) :
    ∀ fuel, MonoOps (mkDocMethods schemas registry fuel) := by
  intro fuel
  induction fuel with
  | zero =>
    constructor
    · intro d db db' h
      cases h
    · intro v d db db' h
      cases h
  | succ n ih =>
    constructor
    · intro d db db' h
      simp only [mkDocMethods] at h
      cases hx : onDeleteWith (mkDocMethods schemas registry n) schemas registry
          d.model d false false db with
      | error e => rw [hx] at h; cases h
      | ok db0 =>
        rw [hx] at h
        cases h
        exact (shrinks_onDeleteRefs _ ih schemas d.model d false false _ db db0 hx).trans
          (shrinks_removeDoc db0 d.model d.idv)
    · intro v d db db' h
      simp only [mkDocMethods] at h
      cases hx : onDeleteWith (mkDocMethods schemas registry n) schemas registry
          d.model d true v db with
      | error e => rw [hx] at h; cases h
      | ok db0 =>
        rw [hx] at h
        cases h
        exact (shrinks_onDeleteRefs _ ih schemas d.model d true v _ db db0 hx).trans
          (shrinks_setDeleted db0 d.model d.idv v)

theorem promiseAll_deleteOne_removes (schemas : Schemas) (registry : Registry)
    (fuel : Nat) :
    ∀ (docs : List Doc) (db db' : DB),
      promiseAll (mkDocMethods schemas registry fuel).deleteOne docs db = .ok db' →
      ∀ d ∈ docs, db'.hasId d.model d.idv = false := by
  intro docs
  induction docs with
  | nil =>
    intro db db' _ d hd
    cases hd
  | cons d0 ds ih =>
    intro db db' h d hd
    simp only [promiseAll] at h
    cases hx : (mkDocMethods schemas registry fuel).deleteOne d0 db with
    | error e => rw [hx] at h; cases h
    | ok db1 =>
      rw [hx] at h
      rcases List.mem_cons.mp hd with hd0 | hds
      · subst hd0
        cases fuel with
        | zero => cases hx
        | succ n =>
          simp only [mkDocMethods] at hx
          cases hy : onDeleteWith (mkDocMethods schemas registry n) schemas registry
              d.model d false false db with
          | error e =>
            simp only [hy] at hx
            exact Except.noConfusion hx
          | ok db0 =>
            simp only [hy] at hx
            cases hx
            have hfalse : ((db0.removeDoc d.model d.idv).hasId d.model d.idv) = false :=
              hasId_removeDoc_self db0 d.model d.idv
            have hshr : Shrinks (db0.removeDoc d.model d.idv) db' :=
              shrinks_promiseAll _
                (fun x dbx dbx' => (mkDocMethods_mono schemas registry (n + 1)).1 x dbx dbx')
                ds _ db' h
            cases hz : db'.hasId d.model d.idv with
            | false => rfl
            | true =>
              rw [hshr d.model d.idv hz] at hfalse
              cases hfalse
      · exact ih db1 db' h d hds

theorem findAll_mem_iff (db : DB) (m pathRef : String) (vals : List Id)
    (bound : Option Id) (d : Doc) :
    d ∈ db.findAll m (getFindQueryObjectFor pathRef vals bound) ↔
      d ∈ db.coll m ∧ SpecBlockMatch pathRef vals bound d := by
  simp only [DB.findAll, List.mem_filter]
  exact and_congr_right (fun _ => matchesQuery_iff_spec pathRef vals bound d)

/-- C2: the cascade enforcement (`onDeleteCascade`) finds exactly the
referencing documents matching the removed values (or the bound value)
and re-invokes on each one the same removal operation — `deleteOne` for a
hard delete, `softDelete` with the same flag value for a soft delete —
under `Promise.all` (modelled as a traversal that completes when all
per-document operations finish and fails with the first failure); and
because each re-invoked `deleteOne` runs that document's own hooks first
(so the enforcement recurses transitively), a successful hard cascade
leaves none of the matched documents in the database. -/
theorem onDeleteCascade_spec (ops : DocMethods) (modelRef pathRef : String)
    (vals : List Id) (bound : Option Id) (softDelete _deleted : Bool) (db : DB) :
    (onDeleteCascade ops modelRef pathRef vals bound softDelete _deleted db =
      if softDelete then
        promiseAll (ops.softDelete _deleted)
          (db.findAll modelRef (getFindQueryObjectFor pathRef vals bound)) db
      else
        promiseAll ops.deleteOne
          (db.findAll modelRef (getFindQueryObjectFor pathRef vals bound)) db)
    ∧ (∀ d, d ∈ db.findAll modelRef (getFindQueryObjectFor pathRef vals bound) ↔
        d ∈ db.coll modelRef ∧ SpecBlockMatch pathRef vals bound d)
    ∧ (∀ (schemas : Schemas) (registry : Registry) (fuel : Nat) (db' : DB),
        onDeleteCascade (mkDocMethods schemas registry fuel) modelRef pathRef vals
          bound false _deleted db = .ok db' →
        ∀ d ∈ db.findAll modelRef (getFindQueryObjectFor pathRef vals bound),
          db'.hasId d.model d.idv = false) := by
  refine ⟨by cases softDelete <;> rfl,
    fun d => findAll_mem_iff db modelRef pathRef vals bound d, ?_⟩
  intro schemas registry fuel db' h d hd
  have hrun : promiseAll (mkDocMethods schemas registry fuel).deleteOne
      (db.findAll modelRef (getFindQueryObjectFor pathRef vals bound)) db = .ok db' := h
  exact promiseAll_deleteOne_removes schemas registry fuel _ db db' hrun d hd

/-- Fixture: the required-and-cascade options of the repository's third
test. -/
def cascOptsW : FieldOpts := ⟨some "Person.contacts", true, true, Option.none⟩

/-- Fixture: the registry as the third test would (correctly) have it. -/
def regCascW : Registry := [("Person", [⟨"Message", "contact", cascOptsW⟩])]

/-- Fixture: one Person and three Messages referencing its contacts. -/
def dbCascW : DB :=
  ⟨[("Person", [personDocW]), ("Message", [msgDocW 10 1, msgDocW 11 2, msgDocW 12 1])]⟩

/-- Witness for C2: running the hard cascade of the third repository test
removes the first referencing message from the database. -/
theorem onDeleteCascade_spec_witness :
    (DB.mk [("Person", [personDocW]), ("Message", [])]).hasId "Message" 10 = false :=
  (onDeleteCascade_spec (mkDocMethods schemasW regCascW 2) "Message" "contact"
      [1, 2] Option.none false false dbCascW).2.2 schemasW regCascW 2
    (DB.mk [("Person", [personDocW]), ("Message", [])]) rfl
    (msgDocW 10 1) (by decide)

/-- Witness for C3: evaluating the set-null enforcement on the test
scenario — soft delete leaves the database alone; hard delete nulls the
matching message's reference. -/
theorem onDeleteSetNull_spec_witness :
    onDeleteSetNull schemasW "Message" "contact" [1, 2] Option.none true dbW = .ok dbW
    ∧ (applyUpdateOp "contact" .setNull (msgDocW 10 1)).get "contact" =
        some (.scalar Option.none) :=
  ⟨(onDeleteSetNull_spec schemasW "Message" "contact" [1, 2] Option.none dbW
      (.cons "contact" (.prim ⟨some "Person.contacts", false, false, Option.none⟩) .nil)
      (.prim ⟨some "Person.contacts", false, false, Option.none⟩) rfl rfl).1,
    (onDeleteSetNull_spec schemasW "Message" "contact" [1, 2] Option.none dbW
      (.cons "contact" (.prim ⟨some "Person.contacts", false, false, Option.none⟩) .nil)
      (.prim ⟨some "Person.contacts", false, false, Option.none⟩) rfl rfl).2.2.2.1
      (msgDocW 10 1)⟩

/-- C4: for a save that removes referenced values, the save-time validator
runs the block check synchronously during validation when the descriptor
is required and not cascade (passing exactly when the block check passes,
enqueueing nothing, mutating nothing); for every other combination it
mutates nothing during validation and instead enqueues a pending task
carrying the descriptor options, referencing model/path, target
model/path, removed values and bound value — and the post-save hook is
what runs the queued tasks, after the commit. -/
theorem validator_dispatch_spec (ops : DocMethods) (schemas : Schemas)
    (opts : FieldOpts) (mn p srm psr : String) (bound : Option Id)
    (oldDoc : Option (List Elem)) (newValues : List Elem)
    (pending0 : List PendingTask) (db : DB) :
    (deletedValuesOf (oldDoc.getD []) newValues ≠ [] →
      opts.required = true → opts.cascade = false →
      (validatorRun ops schemas opts mn p srm psr bound oldDoc newValues pending0 db).enforced = true
      ∧ (validatorRun ops schemas opts mn p srm psr bound oldDoc newValues pending0 db).pending = pending0
      ∧ (validatorRun ops schemas opts mn p srm psr bound oldDoc newValues pending0 db).db = db
      ∧ ((validatorRun ops schemas opts mn p srm psr bound oldDoc newValues pending0 db).result = .ok () ↔
          onDeleteBlock mn p srm psr
            ((deletedValuesOf (oldDoc.getD []) newValues).map elemVal) bound
            false false db = .ok ()))
    ∧ (deletedValuesOf (oldDoc.getD []) newValues ≠ [] →
      (opts.required && !opts.cascade) = false →
      (validatorRun ops schemas opts mn p srm psr bound oldDoc newValues pending0 db).enforced = false
      ∧ (validatorRun ops schemas opts mn p srm psr bound oldDoc newValues pending0 db).db = db
      ∧ (validatorRun ops schemas opts mn p srm psr bound oldDoc newValues pending0 db).result = .ok ()
      ∧ (validatorRun ops schemas opts mn p srm psr bound oldDoc newValues pending0 db).pending =
          pending0 ++ [⟨opts, mn, p, srm, psr,
            (deletedValuesOf (oldDoc.getD []) newValues).map elemVal, bound⟩])
    ∧ (∀ (l : Locals) (fs : Futures) (tasks : List PendingTask),
        l.updateAfterSave = some tasks →
        (postSave ops schemas l db fs).2.1 = (runTasks ops schemas tasks db).1) := by
  refine ⟨?_, ?_, ?_⟩
  · intro hne hreq hcasc
    rw [validatorRun_block ops schemas opts mn p srm psr bound oldDoc newValues
      pending0 db hne hreq hcasc]
    cases hb : onDeleteBlock mn p srm psr
        ((deletedValuesOf (oldDoc.getD []) newValues).map elemVal) bound
        false false db with
    | ok u =>
      refine ⟨rfl, rfl, rfl, ?_⟩
      simp
    | error e =>
      refine ⟨rfl, rfl, rfl, ?_⟩
      simp
  · intro hne hpol
    rw [validatorRun_deferred ops schemas opts mn p srm psr bound oldDoc newValues
      pending0 db hne hpol]
    exact ⟨rfl, rfl, rfl, rfl⟩
  · intro l fs tasks htasks
    cases hr : runTasks ops schemas tasks db with
    | mk db2 r =>
      cases r with
      | ok u => simp [postSave, htasks, hr]
      | error e => simp [postSave, htasks, hr]

/-- Witness for C4: removing the referenced contact under a not-required
descriptor enqueues the task and leaves the database untouched. -/
theorem validator_dispatch_spec_witness :
    (validatorRun (mkDocMethods schemasW [] 1) schemasW
        ⟨some "Person.contacts", false, false, Option.none⟩ "Message" "contact"
        "Person" "contacts" Option.none (some [.subdoc 1 0, .subdoc 2 0])
        [.subdoc 2 0] [] dbW).pending =
      [] ++ [⟨⟨some "Person.contacts", false, false, Option.none⟩, "Message",
        "contact", "Person", "contacts",
        (deletedValuesOf [.subdoc 1 0, .subdoc 2 0] [.subdoc 2 0]).map elemVal,
        Option.none⟩] :=
  ((validator_dispatch_spec (mkDocMethods schemasW [] 1) schemasW
      ⟨some "Person.contacts", false, false, Option.none⟩ "Message" "contact"
      "Person" "contacts" Option.none (some [.subdoc 1 0, .subdoc 2 0])
      [.subdoc 2 0] [] dbW).2.1 (by decide) rfl).2.2.2

/-- C5: if the synchronous block check run during validation throws a
constraint error, the validator restores the target field of the
in-memory document to its prior value and raises a validation failure
wrapping the constraint error's details (models, paths, blocking document
id), leaving the database untouched; no rollback of the field happens on
the deferred (cascade or set-null) paths or when nothing was removed. -/
theorem validator_rollback_spec (ops : DocMethods) (schemas : Schemas)
    (opts : FieldOpts) (mn p srm psr : String) (bound : Option Id)
    (oldDoc : Option (List Elem)) (newValues : List Elem)
    (pending0 : List PendingTask) (db : DB) :
    (∀ e, opts.required = true → opts.cascade = false →
      deletedValuesOf (oldDoc.getD []) newValues ≠ [] →
      onDeleteBlock mn p srm psr
        ((deletedValuesOf (oldDoc.getD []) newValues).map elemVal) bound
        false false db = .error e →
      (validatorRun ops schemas opts mn p srm psr bound oldDoc newValues pending0 db).fieldValue = oldDoc.getD []
      ∧ (validatorRun ops schemas opts mn p srm psr bound oldDoc newValues pending0 db).result =
          .error (.wrapped e.modelSubRef e.pathSubRef e.modelRef e.pathRef e.constrainedDocId)
      ∧ (validatorRun ops schemas opts mn p srm psr bound oldDoc newValues pending0 db).db = db)
    ∧ ((opts.required && !opts.cascade) = false →
      (validatorRun ops schemas opts mn p srm psr bound oldDoc newValues pending0 db).fieldValue = newValues)
    ∧ (deletedValuesOf (oldDoc.getD []) newValues = [] →
      (validatorRun ops schemas opts mn p srm psr bound oldDoc newValues pending0 db).fieldValue = newValues) := by
  refine ⟨?_, ?_, ?_⟩
  · intro e hreq hcasc hne hb
    rw [validatorRun_block ops schemas opts mn p srm psr bound oldDoc newValues
      pending0 db hne hreq hcasc, hb]
    exact ⟨rfl, rfl, rfl⟩
  · intro hpol
    by_cases hdv : deletedValuesOf (oldDoc.getD []) newValues = []
    · rw [validatorRun_no_removed ops schemas opts mn p srm psr bound oldDoc
        newValues pending0 db hdv]
    · rw [validatorRun_deferred ops schemas opts mn p srm psr bound oldDoc
        newValues pending0 db hdv hpol]
  · intro hdv
    rw [validatorRun_no_removed ops schemas opts mn p srm psr bound oldDoc
      newValues pending0 db hdv]

/-- Witness for C5: on the second repository test's block scenario the
validator rolls the field back to the old contacts and raises the wrapped
failure naming the blocking message. -/
theorem validator_rollback_spec_witness :
    (validatorRun (mkDocMethods schemasW [] 1) schemasW
        ⟨some "Person.contacts", true, false, Option.none⟩ "Message" "contact"
        "Person" "contacts" Option.none (some [.subdoc 1 0, .subdoc 2 0])
        [.subdoc 2 0] [] dbW).fieldValue = [.subdoc 1 0, .subdoc 2 0]
    ∧ (validatorRun (mkDocMethods schemasW [] 1) schemasW
        ⟨some "Person.contacts", true, false, Option.none⟩ "Message" "contact"
        "Person" "contacts" Option.none (some [.subdoc 1 0, .subdoc 2 0])
        [.subdoc 2 0] [] dbW).result =
      .error (.wrapped "Person" "contacts" "Message" "contact" 10) :=
  ⟨((validator_rollback_spec (mkDocMethods schemasW [] 1) schemasW
      ⟨some "Person.contacts", true, false, Option.none⟩ "Message" "contact"
      "Person" "contacts" Option.none (some [.subdoc 1 0, .subdoc 2 0])
      [.subdoc 2 0] [] dbW).1 ⟨"Person", "contacts", "Message", "contact", 10⟩
      rfl rfl (by decide) rfl).1,
    ((validator_rollback_spec (mkDocMethods schemasW [] 1) schemasW
      ⟨some "Person.contacts", true, false, Option.none⟩ "Message" "contact"
      "Person" "contacts" Option.none (some [.subdoc 1 0, .subdoc 2 0])
      [.subdoc 2 0] [] dbW).1 ⟨"Person", "contacts", "Message", "contact", 10⟩
      rfl rfl (by decide) rfl).2.1⟩

/-- C6: the removed-value set is exactly the set of elements of the prior
value absent from the proposed value, where sub-documents are compared by
id equality, scalars with an equals method by value equality, and plain
scalars by strict equality (the code's per-element comparison agrees with
that specification on every pair of elements); and when nothing was
removed the validator passes without running or enqueueing any
enforcement. -/
theorem deletedValues_spec (oldValues newValues : List Elem) :
    (∀ o, o ∈ deletedValuesOf oldValues newValues ↔
        o ∈ oldValues ∧ ∀ n ∈ newValues, elemMatchSpec o n = false)
    ∧ (∀ o n, jsElemMatch o n = elemMatchSpec o n)
    ∧ (∀ (ops : DocMethods) (schemas : Schemas) (opts : FieldOpts)
        (mn p srm psr : String) (bound : Option Id) (oldDoc : Option (List Elem))
        (pending0 : List PendingTask) (db : DB),
        deletedValuesOf (oldDoc.getD []) newValues = [] →
        validatorRun ops schemas opts mn p srm psr bound oldDoc newValues pending0 db =
          ⟨.ok (), newValues, pending0, db, false⟩) := by
  have hagree : ∀ o n, jsElemMatch o n = elemMatchSpec o n := by
    intro o n
    cases o <;> cases n <;> rfl
  refine ⟨?_, hagree, ?_⟩
  · intro o
    simp only [deletedValuesOf, List.mem_filter, Bool.not_eq_true']
    constructor
    · rintro ⟨ho, hany⟩
      refine ⟨ho, fun n hn => ?_⟩
      rw [← hagree]
      rcases hx : jsElemMatch o n with _ | _
      · rfl
      · exfalso
        have : newValues.any (jsElemMatch o) = true :=
          List.any_eq_true.mpr ⟨n, hn, hx⟩
        rw [this] at hany
        cases hany
    · rintro ⟨ho, hall⟩
      refine ⟨ho, ?_⟩
      cases hx : newValues.any (jsElemMatch o) with
      | false => rfl
      | true =>
        exfalso
        rcases List.any_eq_true.mp hx with ⟨n, hn, hj⟩
        rw [hagree] at hj
        rw [hall n hn] at hj
        cases hj
  · intro ops schemas opts mn p srm psr bound oldDoc pending0 db h
    exact validatorRun_no_removed ops schemas opts mn p srm psr bound oldDoc
      newValues pending0 db h

theorem futureState_append_fresh (fs : Futures) (fid : Nat) (s : FState)
    (h : fid ∉ fs.map Prod.fst) :
    futureState (fs ++ [(fid, s)]) fid = some s := by
  induction fs with
  | nil => simp [futureState, List.find?]
  | cons p rest ih =>
    have hne : (p.1 == fid) = false := by
      simp only [beq_eq_false_iff_ne, ne_eq]
      intro hh
      exact h (by simp [hh])
    have hrest : fid ∉ rest.map Prod.fst := fun hr => h (by simp [hr])
    simp only [futureState, List.cons_append, List.find?_cons, hne]
    exact ih hrest

theorem futureState_cons (p : Nat × FState) (rest : Futures) (i : Nat) :
    futureState (p :: rest) i =
      (match p.1 == i with
        | true => some p.2
        | false => futureState rest i) := by
  simp only [futureState, List.find?_cons]
  cases p.1 == i <;> rfl

theorem settleOne_cons (p : Nat × FState) (rest : Futures) (fid : Nat) (s : FState) :
    settleOne (p :: rest) fid s =
      (if p.1 == fid && p.2 == FState.pending then (p.1, s) else p) ::
        settleOne rest fid s := rfl

theorem settleAll_cons (p : Nat × FState) (rest : Futures) (ids : List Nat)
    (s : FState) :
    settleAll (p :: rest) ids s =
      (if ids.contains p.1 && p.2 == FState.pending then (p.1, s) else p) ::
        settleAll rest ids s := rfl

theorem futureState_settleOne_self (fs : Futures) (fid : Nat) (s : FState)
    (h : futureState fs fid = some .pending) :
    futureState (settleOne fs fid s) fid = some s := by
  induction fs with
  | nil => simp [futureState, List.find?] at h
  | cons p rest ih =>
    rw [futureState_cons] at h
    cases hk : (p.1 == fid) with
    | true =>
      rw [hk] at h
      have hp : p.2 = FState.pending := Option.some.inj h
      have hcond : (p.1 == fid && p.2 == FState.pending) = true := by simp [hk, hp]
      rw [settleOne_cons, if_pos hcond, futureState_cons]
      simp only [hk]
    | false =>
      rw [hk] at h
      have hcond : (p.1 == fid && p.2 == FState.pending) = false := by simp [hk]
      rw [settleOne_cons, if_neg (by simp [hcond]), futureState_cons]
      simp only [hk]
      exact ih h

theorem futureState_settleAll_mem (fs : Futures) (ids : List Nat) (s : FState)
    (i : Nat) (hmem : i ∈ ids) (h : futureState fs i = some .pending) :
    futureState (settleAll fs ids s) i = some s := by
  induction fs with
  | nil => simp [futureState, List.find?] at h
  | cons p rest ih =>
    rw [futureState_cons] at h
    cases hk : (p.1 == i) with
    | true =>
      rw [hk] at h
      have hp : p.2 = FState.pending := Option.some.inj h
      have hpi : p.1 = i := by simpa using hk
      have hcond : (ids.contains p.1 && p.2 == FState.pending) = true := by
        rw [hpi, hp]
        simp [hmem]
      rw [settleAll_cons, if_pos hcond, futureState_cons]
      simp only [hk]
    | false =>
      rw [hk] at h
      rw [settleAll_cons]
      rcases Bool.eq_false_or_eq_true (ids.contains p.1 && p.2 == FState.pending)
        with hcond | hcond
      · rw [if_pos hcond, futureState_cons]
        simp only [hk]
        exact ih h
      · rw [if_neg (by rw [hcond]; exact Bool.false_ne_true), futureState_cons]
        simp only [hk]
        exact ih h

/-- Witness for C6: in the second repository test, shifting the first
contact off `[c1, c2]` removes exactly `c1`; and with nothing removed the
validator passes untouched. -/
theorem deletedValues_spec_witness :
    ((Elem.subdoc 1 0) ∈ deletedValuesOf [.subdoc 1 0, .subdoc 2 0] [.subdoc 2 0]
      ↔ (Elem.subdoc 1 0) ∈ [Elem.subdoc 1 0, Elem.subdoc 2 0]
        ∧ ∀ n ∈ [Elem.subdoc 2 0], elemMatchSpec (.subdoc 1 0) n = false)
    ∧ validatorRun (mkDocMethods schemasW [] 1) schemasW FieldOpts.none "Message"
        "contact" "Person" "contacts" Option.none (some [Elem.subdoc 2 0])
        [Elem.subdoc 2 0] [] dbW =
      ⟨.ok (), [Elem.subdoc 2 0], [], dbW, false⟩ :=
  ⟨(deletedValues_spec [.subdoc 1 0, .subdoc 2 0] [.subdoc 2 0]).1 (.subdoc 1 0),
    (deletedValues_spec [Elem.subdoc 2 0] [Elem.subdoc 2 0]).2.2
      (mkDocMethods schemasW [] 1) schemasW FieldOpts.none "Message" "contact"
      "Person" "contacts" Option.none (some [Elem.subdoc 2 0]) [] dbW (by decide)⟩

/-- Fixture: the required, non-cascading reference options of the tests. -/
def optsReqW : FieldOpts := ⟨some "Person.contacts", true, false, Option.none⟩

/-- Fixture: a model `M` declaring TWO fields that both reference
`Person.contacts`. -/
def mSchemaW : SchemaFields := .cons "f1" (.prim optsReqW) (.cons "f2" (.prim optsReqW) .nil)

/-- Fixture: the schema table with `Person` and `M` registered. -/
def schemasC7W : Schemas := [("Person", personSchemaW), ("M", mSchemaW)]

/-- C7 (evaluation at the failing input): registering model `M`, whose
fields `f1` and `f2` both declare `subRef: 'Person.contacts'`, leaves the
registry holding ONLY the `f2` descriptor under key `Person` — the `f1`
descriptor registered moments earlier is clobbered, because the append
spreads `refs['Person.contacts']` (the full dotted subRef string, never a
key of the registry) while the assignment writes `refs['Person']`; the
claimed append-preserving registration does not happen. -/
theorem plugin_registry_clobber :
    plugin schemasC7W "M" mSchemaW [("Person", [])] =
      .ok [("Person", [⟨"M", "f2", optsReqW⟩]), ("M", [])]
    ∧ Registry.get [("Person", [⟨"M", "f2", optsReqW⟩]), ("M", [])] "Person" =
      [⟨"M", "f2", optsReqW⟩] :=
  ⟨rfl, rfl⟩

/-- C8 counterexample: on a document instance with nothing pending at all
(nothing was ever enqueued and no batch ever ran), the promise returned
by `subRefsUpdates` is NOT resolved immediately — it is still pending,
and still pending after the post-save hook runs, so it never settles. -/
theorem subRefsUpdates_nothing_pending_hangs :
    futureState (subRefsUpdates Locals.fresh [] 0).2 0 = some .pending
    ∧ futureState
        (postSave (mkDocMethods [] [] 1) [] (subRefsUpdates Locals.fresh [] 0).1
          (DB.mk []) (subRefsUpdates Locals.fresh [] 0).2).2.2.1 0 =
      some .pending :=
  ⟨rfl, rfl⟩

/-- C8 (amended): the promise returned by `subRefsUpdates` resolves
immediately when the post-commit batch has already finished (the finished
flag is set); otherwise it is pending and its resolver is chained, so
that when the post-save hook runs the enqueued batch every chained
pending promise resolves on success and rejects with the first failed
task's error on failure (fan-out); a finished batch deletes its queue and
a post-save with no queue re-runs nothing and changes nothing.  (When
nothing was ever enqueued, no batch ever runs, so a promise obtained then
never settles.) -/
theorem subRefsUpdates_spec (l : Locals) (fs : Futures) (fid : Nat)
    (ops : DocMethods) (schemas : Schemas) (db : DB) :
    (l.updatedAfterSave = some true → fid ∉ fs.map Prod.fst →
      futureState (subRefsUpdates l fs fid).2 fid = some .resolved)
    ∧ (l.updatedAfterSave ≠ some true → fid ∉ fs.map Prod.fst →
      futureState (subRefsUpdates l fs fid).2 fid = some .pending
      ∧ fid ∈ (subRefsUpdates l fs fid).1.resolvers)
    ∧ (∀ tasks, l.updateAfterSave = some tasks →
      ((runTasks ops schemas tasks db).2 = .ok () →
        ∀ i ∈ l.resolvers, futureState fs i = some .pending →
          futureState (postSave ops schemas l db fs).2.2.1 i = some .resolved)
      ∧ (∀ e, (runTasks ops schemas tasks db).2 = .error e →
        ∀ i ∈ l.resolvers, futureState fs i = some .pending →
          futureState (postSave ops schemas l db fs).2.2.1 i = some (.rejected e))
      ∧ (postSave ops schemas l db fs).1.updateAfterSave = Option.none)
    ∧ (l.updateAfterSave = Option.none →
      postSave ops schemas l db fs = (l, db, fs, .ok ())) := by
  refine ⟨?_, ?_, ?_, ?_⟩
  · intro hdone hfresh
    have hb : (l.updatedAfterSave == some true) = true := by simp [hdone]
    simp only [subRefsUpdates, hb, if_true]
    exact futureState_settleOne_self _ fid .resolved
      (futureState_append_fresh fs fid .pending hfresh)
  · intro hnot hfresh
    have hb : (l.updatedAfterSave == some true) = false := by
      cases hx : (l.updatedAfterSave == some true) with
      | false => rfl
      | true => exact absurd (by simpa using hx) hnot
    simp only [subRefsUpdates, hb, Bool.false_eq_true, if_false]
    exact ⟨futureState_append_fresh fs fid .pending hfresh, by simp⟩
  · intro tasks htasks
    cases hr : runTasks ops schemas tasks db with
    | mk db2 r =>
      cases r with
      | ok u =>
        refine ⟨?_, ?_, ?_⟩
        · intro _ i hi hp
          simp only [postSave, htasks, hr]
          exact futureState_settleAll_mem fs l.resolvers .resolved i hi hp
        · intro e he
          simp at he
        · simp [postSave, htasks, hr]
      | error e0 =>
        refine ⟨?_, ?_, ?_⟩
        · intro hok
          simp at hok
        · intro e he i hi hp
          have he2 : e0 = e := by simpa using he
          subst he2
          simp only [postSave, htasks, hr]
          exact futureState_settleAll_mem fs l.resolvers (.rejected e0) i hi hp
        · simp [postSave, htasks, hr]
  · intro hnone
    simp [postSave, hnone]

/-- Witness for C8 (amended): a document whose batch already finished
resolves a fresh `subRefsUpdates` promise immediately; a post-save with
an empty pending queue on a fresh document changes nothing. -/
theorem subRefsUpdates_spec_witness :
    futureState
      (subRefsUpdates ⟨Option.none, some true, []⟩ [] 5).2 5 = some .resolved
    ∧ postSave (mkDocMethods [] [] 1) [] Locals.fresh (DB.mk []) [] =
        (Locals.fresh, DB.mk [], [], .ok ()) :=
  ⟨(subRefsUpdates_spec ⟨Option.none, some true, []⟩ [] 5 (mkDocMethods [] [] 1)
      [] (DB.mk [])).1 rfl (by decide),
    (subRefsUpdates_spec Locals.fresh [] 5 (mkDocMethods [] [] 1) [] (DB.mk [])).2.2.2 rfl⟩

/-- Fixture: the non-array-target options (`subRef: 'Person.name'`). -/
def optsScalarTargetW : FieldOpts := ⟨some "Person.name", true, false, Option.none⟩

/-- Fixture: a model declaring a subRef to the scalar `Person.name`. -/
def m2SchemaW : SchemaFields := .cons "g" (.prim optsScalarTargetW) .nil

/-- Fixture: schema table for the non-array-target scenario. -/
def schemasC9W : Schemas := [("Person", personSchemaW), ("M2", m2SchemaW)]

/-- C9 counterexample: a declared subRef whose target path resolves to a
scalar, non-array field (`Person.name`) is ACCEPTED at registration — the
walk registers the descriptor and attaches the validator without any
error, so "targets a non-array field fails fast at registration" is false
on the code (such a declaration only fails later, when enforcement reads
the field). -/
theorem plugin_nonarray_target_accepted :
    plugin schemasC9W "M2" m2SchemaW [] =
      .ok [("M2", []), ("Person", [⟨"M2", "g", optsScalarTargetW⟩])] := rfl

mutual
/-- A node's registration walk succeeds iff every subRef it declares
resolves on the target schema (`setValidatorResolve` throws otherwise). -/
theorem eachPathNode_ok_iff (schemas : Schemas) (mn p : String)
    (node : SchemaNode) (refs : Registry) :
    (∃ r, eachPathNode schemas mn p node refs = .ok r) ↔
      ∀ sr ∈ declaredSubRefsNode node, setValidatorResolve schemas sr = .ok () := by
  have single : ∀ (sr : String) (refs1 : Registry),
      (∃ r, (setValidatorResolve schemas sr).map (fun _ => refs1) = .ok r) ↔
        ∀ sr' ∈ [sr], setValidatorResolve schemas sr' = .ok () := by
    intro sr refs1
    cases hres : setValidatorResolve schemas sr with
    | ok u =>
      cases u
      constructor
      · intro _ sr' hsr'
        rw [List.mem_singleton] at hsr'
        subst hsr'
        exact hres
      · intro _
        exact ⟨refs1, rfl⟩
    | error e =>
      constructor
      · rintro ⟨r, hr⟩
        exact Except.noConfusion hr
      · intro hall
        have hx := hall sr (by simp)
        rw [hres] at hx
        exact Except.noConfusion hx
  cases node with
  | prim opts =>
    cases hsr : opts.subRef with
    | none => simp [eachPathNode, declaredSubRefsNode, hsr]
    | some sr =>
      simp only [eachPathNode, declaredSubRefsNode, hsr]
      exact single sr _
  | primArray elemOpts arrOpts =>
    cases hsr : elemOpts.subRef with
    | some sr =>
      simp only [eachPathNode, declaredSubRefsNode, hsr]
      exact single sr _
    | none =>
      cases hsr2 : arrOpts.subRef with
      | some sr =>
        simp only [eachPathNode, declaredSubRefsNode, hsr, hsr2]
        exact single sr _
      | none => simp [eachPathNode, declaredSubRefsNode, hsr, hsr2]
  | docArray sub =>
    simp only [eachPathNode, declaredSubRefsNode]
    exact eachPathFields_ok_iff schemas mn (p ++ ".") sub refs

/-- A path table's registration walk succeeds iff every subRef it declares
resolves on the target schema. -/
theorem eachPathFields_ok_iff (schemas : Schemas) (mn basePath : String)
    (fs : SchemaFields) (refs : Registry) :
    (∃ r, eachPathFields schemas mn basePath fs refs = .ok r) ↔
      ∀ sr ∈ declaredSubRefsFields fs, setValidatorResolve schemas sr = .ok () := by
  cases fs with
  | nil => simp [eachPathFields, declaredSubRefsFields]
  | cons name node rest =>
    simp only [eachPathFields, declaredSubRefsFields]
    cases hn : eachPathNode schemas mn (basePath ++ name) node refs with
    | error e =>
      constructor
      · rintro ⟨r, hr⟩
        exact Except.noConfusion hr
      · intro hall
        exfalso
        have hnode : ∀ sr ∈ declaredSubRefsNode node,
            setValidatorResolve schemas sr = .ok () :=
          fun sr hsr => hall sr (by simp [hsr])
        rcases (eachPathNode_ok_iff schemas mn (basePath ++ name) node refs).mpr hnode
          with ⟨r1, hr1⟩
        rw [hn] at hr1
        exact Except.noConfusion hr1
    | ok r1 =>
      have hnode : ∀ sr ∈ declaredSubRefsNode node,
          setValidatorResolve schemas sr = .ok () :=
        (eachPathNode_ok_iff schemas mn (basePath ++ name) node refs).mp ⟨r1, hn⟩
      constructor
      · rintro ⟨r, hr⟩
        intro sr hsr
        rcases List.mem_append.mp hsr with hsr1 | hsr2
        · exact hnode sr hsr1
        · exact (eachPathFields_ok_iff schemas mn basePath rest r1).mp ⟨r, hr⟩ sr hsr2
      · intro hall
        have hrest : ∀ sr ∈ declaredSubRefsFields rest,
            setValidatorResolve schemas sr = .ok () :=
          fun sr hsr => hall sr (by simp [hsr])
        exact (eachPathFields_ok_iff schemas mn basePath rest r1).mpr hrest
end

/-- C9 (amended): model registration fails fast — with a generic thrown
error, not a dedicated configuration error — exactly when some declared
subRef's target path does not resolve directly on the target model's
schema, which is the case for every path descending into a document array
(hence for any second array hop); a declared path that resolves, even to
a non-array field, is accepted at registration and only fails when a
delete or save later exercises it. -/
theorem plugin_registration_resolves (schemas : Schemas) (mn : String)
    (sch : SchemaFields) (refs : Registry) :
    (∃ r, plugin schemas mn sch refs = .ok r) ↔
      ∀ sr ∈ declaredSubRefsFields sch, setValidatorResolve schemas sr = .ok () := by
  unfold plugin
  exact eachPathFields_ok_iff schemas mn "" sch _

/-- Fixture: `Person` whose contacts sub-documents hold a nested primitive
array `bossContacts` (the README's invalid example). -/
def person2SchemaW : SchemaFields :=
  .cons "contacts"
    (.docArray (.cons "bossContacts" (.primArray FieldOpts.none FieldOpts.none) .nil)) .nil

/-- Fixture: a model declaring the two-array-hop subRef
`Person.contacts.bossContacts`. -/
def m3SchemaW : SchemaFields :=
  .cons "g" (.prim ⟨some "Person.contacts.bossContacts", true, false, Option.none⟩) .nil

/-- Witness for C9 (amended): the accepted scalar-target registration
implies its path resolves; and the two-array-hop declaration of the
README's invalid example is rejected at registration with the generic
runtime error. -/
theorem plugin_registration_resolves_witness :
    setValidatorResolve schemasC9W "Person.name" = .ok ()
    ∧ plugin [("Person", person2SchemaW)] "M3" m3SchemaW [] = .error .runtimeError :=
  ⟨(plugin_registration_resolves schemasC9W "M2" m2SchemaW []).mp
      ⟨[("M2", []), ("Person", [⟨"M2", "g", optsScalarTargetW⟩])], rfl⟩
      "Person.name" (by decide),
    rfl⟩

end SubRefs
